import Mathlib

/-!
# clog: a verification development of `main.go`

Shallow embedding of the tail reader (`getLastLines`), the growth tracker
(`countTotalLines`, `updateLineCount`), the statistics engine (`calculateStats`),
the asset test (`isAsset`), and the decoding of lines, the filter loops and the
rendering of lines in `processLogs`.

Conventions of the embedding.
* A file is the list of its bytes (`List Nat`, every element below 256); the byte
  of a line feed is `10`.  A file that cannot be opened is `none`.
* A Go string that was decoded from JSON or given as a flag is a `String`, handled
  as its list of Unicode code points (`String.toList`).
* Go `int` and `int64` values are `Int` or `Nat`; none of the modelled
  computations comes near the 64-bit limits.
* Loops over a file are given by structural recursion on a fuel argument and
  return `none` when the fuel is used up; the entry points pass enough fuel and the
  theorems show a `some` result.
-/

namespace Clog

/-! ## Go library functions used by the program -/

/-- The fragments of `strings.Split(s, sep)` for a one-element separator: the
pieces of `s` between occurrences of `sep`; always at least one fragment. -/
def stringsSplit {α : Type} [DecidableEq α] (sep : α) : List α → List (List α)
  | [] => [[]]
  | c :: cs =>
    if c = sep then [] :: stringsSplit sep cs
    else
      match stringsSplit sep cs with
      | [] => [[c]]
      | frag :: frags => (c :: frag) :: frags

/-- The value of `bytes.Count(buf, []byte{10})`. -/
def bytesCount (buf : List Nat) : Nat :=
  buf.count 10

/-- The value of `strings.Contains(s, substr)`. -/
def stringsContains : List Char → List Char → Bool
  | [], substr => substr.isEmpty
  | c :: cs, substr => substr.isPrefixOf (c :: cs) || stringsContains cs substr

/-- The value of `strings.ToLower(s)`: the rune-wise image of `s`.  The rune
mapping `unicode.ToLower` is the parameter `lower`. -/
def stringsToLower (lower : Char → Char) (s : List Char) : List Char :=
  s.map lower

/-- Scan of `strings.LastIndex`: `i` is the index of the head of the remaining
text, `acc` the last index found so far. -/
def lastIndexFrom (c : Char) : List Char → Nat → Int → Int
  | [], _, acc => acc
  | x :: xs, i, acc => lastIndexFrom c xs (i + 1) (if x = c then (i : Int) else acc)

/-- The value of `strings.LastIndex(s, c)` for a one-rune `c`: the index of the
last occurrence of `c` in `s`, or `-1`. -/
def stringsLastIndex (s : List Char) (c : Char) : Int :=
  lastIndexFrom c s 0 (-1)

/-- What `file.Seek(off, io.SeekStart)` followed by `file.Read(buf)` leaves in a
fresh buffer of `size` bytes: the bytes of the file from `off` on, at most `size`
of them, the rest of the buffer keeping its zero bytes. -/
def readAt (content : List Nat) (off size : Nat) : List Nat :=
  let got := (content.drop off).take size
  got ++ List.replicate (size - got.length) 0

/-! ## IEEE-754 binary64 arithmetic

A finite `float64` is the rational number it denotes.  Each arithmetic operation
of the program on `float64` values is the exact operation followed by `f64`,
rounding to the nearest representable value, ties to even.  Overflow to an
infinity is outside the model. -/

/-- Nearest natural number to `num / den`, ties to the even one (`den > 0`). -/
def roundHalfEven (num den : Nat) : Nat :=
  let q := num / den
  let r := num % den
  if 2 * r < den then q
  else if den < 2 * r then q + 1
  else if q % 2 = 0 then q else q + 1

/-- The fraction `num / den` multiplied by `2 ^ k`, as a numerator and a
denominator. -/
def scalePow2 (num den : Nat) (k : Int) : Nat × Nat :=
  if 0 ≤ k then (num * 2 ^ k.toNat, den) else (num, den * 2 ^ (-k).toNat)

/-- Binary logarithm by repeated halving; `fuel` bounds the number of halvings. -/
def log2Fuel : Nat → Nat → Nat
  | 0, _ => 0
  | fuel + 1, n => if n < 2 then 0 else log2Fuel fuel (n / 2) + 1

/-- The exponent `e` with `2 ^ e ≤ num / den < 2 ^ (e + 1)`, for `num, den > 0`. -/
def floorLog2 (num den : Nat) : Int :=
  let d : Int := (log2Fuel num num : Int) - (log2Fuel den den : Int)
  let s := scalePow2 num den (-d)
  if s.2 ≤ s.1 then d else d - 1

/-- Rounding of a rational number to the nearest `float64` (53-bit significand,
least exponent `-1022`, ties to even). -/
def f64 (q : ℚ) : ℚ :=
  if q = 0 then 0
  else
    let n := q.num.natAbs
    let e := max (floorLog2 n q.den) (-1022)
    let s := scalePow2 n q.den (52 - e)
    let m := roundHalfEven s.1 s.2
    let t := scalePow2 m 1 (e - 52)
    let r : ℚ := (t.1 : ℚ) / (t.2 : ℚ)
    if q < 0 then -r else r

/-- Conversion `int(x)` of a `float64` to an integer: truncation toward zero. -/
def goInt (x : ℚ) : Int :=
  Int.tdiv x.num (x.den : Int)

/-! ## Data model -/

/-- One decoded log line (`CaddyLog`); the nested `Request` fields are flattened.
The two `float64` fields hold the rational value of the float. -/
structure CaddyLog where
  Timestamp : ℚ
  Status : Int
  Duration : ℚ
  RemoteIP : String
  Method : String
  Host : String
  URI : String
deriving DecidableEq

/-- The statistics record `LogStats`.  The `float64` fields `RPS` and
`Status1xx` .. `Status5xx` hold the exact value of the expression that the program
evaluates in `float64` (the stored float is the result of the same operations,
each rounded to `float64`); the two `int` fields hold the integer that the program
computes, rounding included. -/
structure LogStats where
  RPS : ℚ
  Status1xx : ℚ
  Status2xx : ℚ
  Status3xx : ℚ
  Status4xx : ℚ
  Status5xx : ℚ
  TopIP : String
  TopIPPct : Int
  AvgLatency : Int
deriving DecidableEq

/-- The zero value `LogStats{}`. -/
def LogStats.zero : LogStats :=
  ⟨0, 0, 0, 0, 0, 0, "", 0, 0⟩

/-- The globals `totalLines` and `lastSize` of the growth tracker. -/
structure Tracker where
  totalLines : Nat
  lastSize : Nat
deriving DecidableEq

/-- The flags that `processLogs` receives from `main`, under the names of its
parameters. -/
structure Flags where
  lCount : Int
  ha : Bool
  e : Bool
  all : Bool
  f : String
  host : String
deriving DecidableEq

/-! ## Statistics engine (`calculateStats`) -/

/-- The statement `ipMap[ip]++` on the tally, kept as an association list in
order of first occurrence. -/
def ipMapIncr : List (String × Nat) → String → List (String × Nat)
  | [], ip => [(ip, 1)]
  | (k, v) :: rest, ip => if k = ip then (k, v + 1) :: rest else (k, v) :: ipMapIncr rest ip

/-- The variables that the first loop of `calculateStats` updates. -/
structure StatsAcc where
  minTs : ℚ
  maxTs : ℚ
  totalLatency : ℚ
  ipMap : List (String × Nat)
  count1 : Nat
  count2 : Nat
  count3 : Nat
  count4 : Nat
  count5 : Nat

/-- One pass of the body of `for _, l := range logs`: the four updates that
every entry makes, then the `switch` on the status code. -/
def statsStep (a : StatsAcc) (l : CaddyLog) : StatsAcc :=
  let a : StatsAcc :=
    { a with
      minTs := if l.Timestamp < a.minTs then l.Timestamp else a.minTs
      maxTs := if l.Timestamp > a.maxTs then l.Timestamp else a.maxTs
      totalLatency := f64 (a.totalLatency + l.Duration)
      ipMap := ipMapIncr a.ipMap l.RemoteIP }
  if l.Status ≥ 500 then { a with count5 := a.count5 + 1 }
  else if l.Status ≥ 400 then { a with count4 := a.count4 + 1 }
  else if l.Status ≥ 300 then { a with count3 := a.count3 + 1 }
  else if l.Status ≥ 200 then { a with count2 := a.count2 + 1 }
  else if l.Status ≥ 100 then { a with count1 := a.count1 + 1 }
  else a

/-- One pass of the body of `for ip, count := range ipMap` on the pair
`(topIP, topCount)`. -/
def topStep (top : String × Nat) (kv : String × Nat) : String × Nat :=
  if kv.2 > top.2 then (kv.1, kv.2) else top

/-- The function `calculateStats`.  The order in which Go ranges over `ipMap` is
not fixed by the language; it is the parameter `iter`, which returns the entries
of the map in the order of the iteration. -/
def calculateStats (iter : List (String × Nat) → List (String × Nat))
    (logs : List CaddyLog) : LogStats :=
  match logs with
  | [] => LogStats.zero
  | l0 :: _ =>
    let a := logs.foldl statsStep ⟨l0.Timestamp, l0.Timestamp, 0, [], 0, 0, 0, 0, 0⟩
    let total : ℚ := (logs.length : ℚ)
    let timeDiff := a.maxTs - a.minTs
    let top := (iter a.ipMap).foldl topStep ("", 0)
    { Status1xx := ((a.count1 : ℚ) / total) * 100
      Status2xx := ((a.count2 : ℚ) / total) * 100
      Status3xx := ((a.count3 : ℚ) / total) * 100
      Status4xx := ((a.count4 : ℚ) / total) * 100
      Status5xx := ((a.count5 : ℚ) / total) * 100
      AvgLatency := goInt (f64 (f64 (a.totalLatency / f64 total) * 1000))
      RPS := if timeDiff > 0 then total / timeDiff else 0
      TopIP := top.1
      TopIPPct := goInt (f64 (f64 (f64 (top.2 : ℚ) / f64 total) * 100)) }

/-! ## Growth tracker (`countTotalLines`, `updateLineCount`) -/

/-- A read of the file: the offset it starts at and the number of bytes it
returns. -/
abbrev ReadLog := List (Nat × Nat)

/-- The value of `f.Read(buf[:size])` with the file position at `pos`: the bytes
returned; the error is `io.EOF` exactly when no byte is returned and `size > 0`. -/
def fileRead (content : List Nat) (pos size : Nat) : List Nat :=
  (content.drop pos).take size

/-- The loop of `countTotalLines`: reads of 32 KiB from `pos` on until the read
that returns `io.EOF`; `count` is the running number of line feeds, `log` the
reads made so far. -/
def countLoop (content : List Nat) : Nat → Nat → Nat → ReadLog → Option (Nat × ReadLog)
  | 0, _, _, _ => none
  | fuel + 1, pos, count, log =>
    let got := fileRead content pos (32 * 1024)
    let c := got.length
    let count := if c > 0 then count + bytesCount got else count
    let log := log ++ [(pos, c)]
    if c = 0 then some (count, log)
    else countLoop content fuel (pos + c) count log

/-- The function `countTotalLines`: the pair `(count, info.Size())` and the reads
made; `(0, 0)` when the file cannot be opened. -/
def countTotalLines (file : Option (List Nat)) : Option ((Nat × Nat) × ReadLog) :=
  match file with
  | none => some ((0, 0), [])
  | some content =>
    (countLoop content (content.length + 2) 0 0 []).map
      (fun r => ((r.1, content.length), r.2))

/-- The loop `for bytesToRead > 0` of `updateLineCount`, the file position at
`pos`. -/
def appendLoop (content : List Nat) : Nat → Nat → Nat → Nat → ReadLog → Option (Nat × ReadLog)
  | 0, _, _, _, _ => none
  | fuel + 1, pos, bytesToRead, totalLines, log =>
    if bytesToRead > 0 then
      let readSize := if bytesToRead < 32 * 1024 then bytesToRead else 32 * 1024
      let got := fileRead content pos readSize
      let c := got.length
      let log := log ++ [(pos, c)]
      if c > 0 then
        appendLoop content fuel (pos + c) (bytesToRead - c) (totalLines + bytesCount got) log
      else some (totalLines, log)
    else some (totalLines, log)

/-- The function `updateLineCount` on the tracker `t`: its result, the tracker
after the call and the reads it made.  `file` is `none` when `os.Stat` fails. -/
def updateLineCount (file : Option (List Nat)) (t : Tracker) :
    Option (Bool × Tracker × ReadLog) :=
  match file with
  | none => some (false, t, [])
  | some content =>
    let currentSize := content.length
    if currentSize = t.lastSize then some (false, t, [])
    else if currentSize > t.lastSize then
      (appendLoop content (currentSize - t.lastSize + 1) t.lastSize
          (currentSize - t.lastSize) t.totalLines []).map
        (fun r => (true, ⟨r.1, currentSize⟩, r.2))
    else
      (countTotalLines (some content)).map (fun r => (true, ⟨r.1.1, r.1.2⟩, r.2))

/-! ## Tail reader (`getLastLines`) -/

/-- The loop `for cursor < fileSize` of `getLastLines`. -/
def getLastLinesLoop (content : List Nat) (fileSize bufSize n : Nat) :
    Nat → Nat → List (List Nat) → Option (List (List Nat))
  | 0, _, _ => none
  | fuel + 1, cursor, lines =>
    if cursor < fileSize then
      let cursor := if cursor + bufSize > fileSize then fileSize else cursor + bufSize
      let buf := readAt content (fileSize - cursor) bufSize
      let chunk := stringsSplit 10 buf
      let chunk :=
        if lines.length = 0 ∧ chunk.getLast? = some [] then chunk.dropLast else chunk
      let lines := chunk ++ lines
      if lines.length > n then some (lines.drop (lines.length - n))
      else getLastLinesLoop content fileSize bufSize n fuel cursor lines
    else some lines

/-- The function `getLastLines` for a count `n ≥ 0`: the lines returned and the
file size; `(nil, 0)` when the file cannot be opened. -/
def getLastLines (file : Option (List Nat)) (n : Nat) : Option (List (List Nat) × Nat) :=
  match file with
  | none => some ([], 0)
  | some content =>
    let fileSize := content.length
    let bufSize := if fileSize < 4096 then fileSize else 4096
    (getLastLinesLoop content fileSize bufSize n (fileSize + 1) 0 []).map
      (fun ls => (ls, fileSize))

/-! ## Asset test (`isAsset`) -/

/-- The keys of the map `assets` of `isAsset` (every key is mapped to `true`). -/
def assets : List String :=
  [".js", ".css", ".map", ".scss", ".jpg", ".jpeg", ".png", ".gif", ".webp", ".avif",
   ".svg", ".ico", ".cur", ".woff", ".woff2", ".ttf", ".otf", ".eot", ".mp4", ".webm",
   ".mov", ".ogv", ".mp3", ".wav", ".m4a", ".ogg", ".flac", ".aac", ".zip", ".gz",
   ".tar", ".pdf", ".webmanifest", ".xml", ".robots.txt", ".php"]

/-- The function `isAsset`. -/
def isAsset (lower : Char → Char) (uri : String) : Bool :=
  let clean := (stringsSplit '?' uri.toList).headD []
  let lastDot := stringsLastIndex clean '.'
  lastDot ≠ -1 && assets.contains (String.mk (stringsToLower lower (clean.drop lastDot.toNat)))

/-! ## Filter loops of `processLogs` -/

/-- The test of the host filter, `true` when the entry is skipped. -/
def hostSkips (lower : Char → Char) (fl : Flags) (l : CaddyLog) : Bool :=
  fl.host ≠ "" &&
    (!stringsContains (stringsToLower lower l.RemoteIP.toList)
        (stringsToLower lower fl.host.toList) &&
     !stringsContains (stringsToLower lower l.Host.toList)
        (stringsToLower lower fl.host.toList))

/-- The test of the free-text filter, `true` when the entry is skipped. -/
def findSkips (lower : Char → Char) (fl : Flags) (l : CaddyLog) : Bool :=
  fl.f ≠ "" &&
    (!stringsContains (stringsToLower lower l.URI.toList) (stringsToLower lower fl.f.toList) &&
     !stringsContains (stringsToLower lower l.Host.toList) (stringsToLower lower fl.f.toList) &&
     !stringsContains (stringsToLower lower l.RemoteIP.toList)
        (stringsToLower lower fl.f.toList))

/-- The loop `for i := len(cachedLogs) - 1; i >= 0; i--` of `processLogs`, on the
entries still to visit (newest first).  `finalOutput` holds, in place of each
formatted line, the entry the line is formatted from. -/
def snapshotLoop (lower : Char → Char) (fl : Flags) :
    List CaddyLog → List CaddyLog → Int → List CaddyLog
  | [], finalOutput, _ => finalOutput
  | l :: rest, finalOutput, processedCount =>
    if hostSkips lower fl l then snapshotLoop lower fl rest finalOutput processedCount
    else if !fl.all && (fl.ha && isAsset lower l.URI) then
      snapshotLoop lower fl rest finalOutput processedCount
    else if !fl.all && decide (processedCount ≥ fl.lCount) then finalOutput
    else if fl.e && decide (l.Status < 400) then
      snapshotLoop lower fl rest finalOutput processedCount
    else if findSkips lower fl l then snapshotLoop lower fl rest finalOutput processedCount
    else snapshotLoop lower fl rest (l :: finalOutput) (processedCount + 1)

/-- The entries whose lines the snapshot part of `processLogs` prints, in the
order of printing. -/
def snapshot (lower : Char → Char) (fl : Flags) (cachedLogs : List CaddyLog) : List CaddyLog :=
  snapshotLoop lower fl cachedLogs.reverse [] 0

/-- The filter of the live-follow loop `for line := range t.Lines` on a decoded
line: `true` when the line is printed. -/
def liveAccepts (lower : Char → Char) (fl : Flags) (l : CaddyLog) : Bool :=
  if hostSkips lower fl l then false
  else if fl.ha && isAsset lower l.URI then false
  else if fl.e && decide (l.Status < 400) then false
  else if findSkips lower fl l then false
  else true


/-! ## Line decoding (`json.Unmarshal` into `CaddyLog`)

The text of a line is read by the grammar of JSON (RFC 8259, as checked by
`encoding/json`), which gives a JSON value or an error; the value is then stored
into a fresh `CaddyLog` by the rules of `encoding/json` for a struct.  The readers
of strings, arrays, objects and values use up at least one byte of the text at
each step, and are given a fuel of one more than the length of the text that is
left. -/

/-- A JSON number: the exact value of the literal, and whether the literal is
written as an integer (an optional minus sign and digits, no fraction, no
exponent). -/
structure JsonNumber where
  value : ℚ
  intLiteral : Bool

/-- A JSON value. -/
inductive Json where
  | null : Json
  | bool : Bool → Json
  | num : JsonNumber → Json
  | str : String → Json
  | arr : List Json → Json
  | obj : List (String × Json) → Json

/-- The blanks of JSON: space, tab, carriage return, line feed. -/
def isJsonSpace (b : Nat) : Bool :=
  b = 32 || b = 9 || b = 13 || b = 10

/-- The text without its leading blanks. -/
def skipSpace : List Nat → List Nat
  | [] => []
  | b :: bs => if isJsonSpace b then skipSpace bs else b :: bs

/-- The bytes `0` to `9`. -/
def isDigitByte (b : Nat) : Bool :=
  decide (48 ≤ b) && decide (b ≤ 57)

/-- The leading digits of a text and the rest of the text. -/
def takeDigits : List Nat → List Nat × List Nat
  | [] => ([], [])
  | b :: bs =>
    if isDigitByte b then ((b :: (takeDigits bs).1), (takeDigits bs).2) else ([], b :: bs)

/-- The number written by a list of digits. -/
def digitsValue (ds : List Nat) : Nat :=
  ds.foldl (fun acc d => acc * 10 + (d - 48)) 0

/-- The fraction part of a number literal: nothing, or `.` and at least one digit.
The result is the digits of the fraction and the rest of the text. -/
def parseFraction : List Nat → Option (List Nat × List Nat)
  | 46 :: rest =>
    match takeDigits rest with
    | ([], _) => none
    | (ds, rest2) => some (ds, rest2)
  | s => some ([], s)

/-- The exponent part of a number literal: nothing, or `e` or `E`, an optional
sign and at least one digit.  The result is whether an exponent is written, its
value, and the rest of the text. -/
def parseExponent (s : List Nat) : Option (Bool × Int × List Nat) :=
  match s with
  | [] => some (false, 0, [])
  | b :: rest =>
    if b = 101 ∨ b = 69 then
      match rest with
      | 43 :: rest2 =>
        match takeDigits rest2 with
        | ([], _) => none
        | (ds, rest3) => some (true, (digitsValue ds : Int), rest3)
      | 45 :: rest2 =>
        match takeDigits rest2 with
        | ([], _) => none
        | (ds, rest3) => some (true, -(digitsValue ds : Int), rest3)
      | _ =>
        match takeDigits rest with
        | ([], _) => none
        | (ds, rest3) => some (true, (digitsValue ds : Int), rest3)
    else some (false, 0, b :: rest)

/-- A number literal after its optional minus sign: `0` or a digit from 1 to 9
followed by digits, then the fraction and the exponent. -/
def parseUnsigned (negative : Bool) (s : List Nat) : Option (JsonNumber × List Nat) :=
  let intPart : Option (List Nat × List Nat) :=
    match s with
    | [] => none
    | b :: rest =>
      if b = 48 then some ([48], rest)
      else if isDigitByte b then some (b :: (takeDigits rest).1, (takeDigits rest).2)
      else none
  match intPart with
  | none => none
  | some (ds, rest) =>
    match parseFraction rest with
    | none => none
    | some (fs, rest2) =>
      match parseExponent rest2 with
      | none => none
      | some (hasExp, e, rest3) =>
        let mant : ℚ := (digitsValue (ds ++ fs) : ℚ)
        let v : ℚ := mant * (10 : ℚ) ^ (e - (fs.length : Int))
        some (⟨if negative then -v else v, fs.isEmpty && !hasExp⟩, rest3)

/-- A number literal. -/
def parseNumber : List Nat → Option (JsonNumber × List Nat)
  | 45 :: rest => parseUnsigned true rest
  | s => parseUnsigned false s

/-- The value of a hexadecimal digit. -/
def hexValue (b : Nat) : Option Nat :=
  if 48 ≤ b ∧ b ≤ 57 then some (b - 48)
  else if 97 ≤ b ∧ b ≤ 102 then some (b - 87)
  else if 65 ≤ b ∧ b ≤ 70 then some (b - 55)
  else none

/-- The four hexadecimal digits after `\u`: their value and the rest of the
text. -/
def parseHex4 : List Nat → Option (Nat × List Nat)
  | a :: b :: c :: d :: rest =>
    match hexValue a, hexValue b, hexValue c, hexValue d with
    | some x, some y, some z, some w => some (((x * 16 + y) * 16 + z) * 16 + w, rest)
    | _, _, _, _ => none
  | _ => none

/-- A byte from `0x80` to `0xBF`. -/
def isContinuation (b : Nat) : Bool :=
  decide (128 ≤ b) && decide (b ≤ 191)

/-- The value of `utf8.DecodeRune` on a text that begins with a byte of `0x80` or
more: the rune and the rest of the text; an ill-formed sequence gives U+FFFD and
uses up one byte. -/
def decodeRune : List Nat → Char × List Nat
  | [] => (Char.ofNat 65533, [])
  | b0 :: rest =>
    let bad : Char × List Nat := (Char.ofNat 65533, rest)
    if 194 ≤ b0 ∧ b0 ≤ 223 then
      match rest with
      | b1 :: r1 =>
        if isContinuation b1 then (Char.ofNat ((b0 - 192) * 64 + (b1 - 128)), r1) else bad
      | _ => bad
    else if 224 ≤ b0 ∧ b0 ≤ 239 then
      match rest with
      | b1 :: b2 :: r2 =>
        let lo := if b0 = 224 then 160 else 128
        let hi := if b0 = 237 then 159 else 191
        if lo ≤ b1 ∧ b1 ≤ hi ∧ isContinuation b2 then
          (Char.ofNat (((b0 - 224) * 64 + (b1 - 128)) * 64 + (b2 - 128)), r2)
        else bad
      | _ => bad
    else if 240 ≤ b0 ∧ b0 ≤ 244 then
      match rest with
      | b1 :: b2 :: b3 :: r3 =>
        let lo := if b0 = 240 then 144 else 128
        let hi := if b0 = 244 then 143 else 191
        if lo ≤ b1 ∧ b1 ≤ hi ∧ isContinuation b2 ∧ isContinuation b3 then
          (Char.ofNat ((((b0 - 240) * 64 + (b1 - 128)) * 64 + (b2 - 128)) * 64 + (b3 - 128)), r3)
        else bad
      | _ => bad
    else bad

/-- The rune of a `\uXXXX` escape with the value `u`, the text after it being
`rest`: a surrogate pair written as two escapes is one rune, a surrogate without
its partner is U+FFFD. -/
def escapedRune (u : Nat) (rest : List Nat) : Char × List Nat :=
  if 55296 ≤ u ∧ u ≤ 57343 then
    match rest with
    | 92 :: 117 :: rest2 =>
      match parseHex4 rest2 with
      | some (u2, rest3) =>
        if u ≤ 56319 ∧ 56320 ≤ u2 ∧ u2 ≤ 57343 then
          (Char.ofNat (65536 + (u - 55296) * 1024 + (u2 - 56320)), rest3)
        else (Char.ofNat 65533, rest)
      | none => (Char.ofNat 65533, rest)
    | _ => (Char.ofNat 65533, rest)
  else (Char.ofNat u, rest)

/-- A string literal after its opening quote: the runes of the string and the
text after the closing quote.  A byte below `0x20` and an unknown escape are
errors. -/
def parseString : Nat → List Nat → Option (List Char × List Nat)
  | 0, _ => none
  | _ + 1, [] => none
  | fuel + 1, b :: rest =>
    if b = 34 then some ([], rest)
    else if b = 92 then
      match rest with
      | [] => none
      | e :: rest2 =>
        let simple : Option Char :=
          if e = 34 then some (Char.ofNat 34)
          else if e = 92 then some (Char.ofNat 92)
          else if e = 47 then some (Char.ofNat 47)
          else if e = 98 then some (Char.ofNat 8)
          else if e = 102 then some (Char.ofNat 12)
          else if e = 110 then some (Char.ofNat 10)
          else if e = 114 then some (Char.ofNat 13)
          else if e = 116 then some (Char.ofNat 9)
          else none
        match simple with
        | some c => (parseString fuel rest2).map (fun r => (c :: r.1, r.2))
        | none =>
          if e = 117 then
            match parseHex4 rest2 with
            | none => none
            | some (u, rest3) =>
              (parseString fuel (escapedRune u rest3).2).map
                (fun r => ((escapedRune u rest3).1 :: r.1, r.2))
          else none
    else if b < 32 then none
    else if b < 128 then (parseString fuel rest).map (fun r => (Char.ofNat b :: r.1, r.2))
    else
      (parseString fuel (decodeRune (b :: rest)).2).map
        (fun r => ((decodeRune (b :: rest)).1 :: r.1, r.2))

/-- The elements of an array after the first one is due: values separated by
commas up to the closing bracket.  `value` reads one value. -/
def parseElements (value : List Nat → Option (Json × List Nat)) :
    Nat → List Nat → Option (List Json × List Nat)
  | 0, _ => none
  | fuel + 1, s =>
    match value s with
    | none => none
    | some (v, rest) =>
      match skipSpace rest with
      | 44 :: rest2 => (parseElements value fuel rest2).map (fun r => (v :: r.1, r.2))
      | 93 :: rest2 => some ([v], rest2)
      | _ => none

/-- The members of an object after the first one is due: `"key" : value` pairs
separated by commas up to the closing brace. -/
def parseMembers (value : List Nat → Option (Json × List Nat)) :
    Nat → List Nat → Option (List (String × Json) × List Nat)
  | 0, _ => none
  | fuel + 1, s =>
    match skipSpace s with
    | 34 :: rest =>
      match parseString (rest.length + 1) rest with
      | none => none
      | some (key, rest2) =>
        match skipSpace rest2 with
        | 58 :: rest3 =>
          match value rest3 with
          | none => none
          | some (v, rest4) =>
            match skipSpace rest4 with
            | 44 :: rest5 =>
              (parseMembers value fuel rest5).map (fun r => ((String.mk key, v) :: r.1, r.2))
            | 125 :: rest5 => some ([(String.mk key, v)], rest5)
            | _ => none
        | _ => none
    | _ => none

/-- One JSON value at the head of a text, after blanks, and the rest of the text.
`depth` is the number of arrays and objects that are open; `encoding/json` allows
10000 of them. -/
def parseValue : Nat → Nat → List Nat → Option (Json × List Nat)
  | 0, _, _ => none
  | fuel + 1, depth, s =>
    match skipSpace s with
    | [] => none
    | b :: rest =>
      if b = 123 then
        if 10000 ≤ depth then none
        else
          match skipSpace rest with
          | 125 :: rest2 => some (Json.obj [], rest2)
          | _ =>
            (parseMembers (parseValue fuel (depth + 1)) (rest.length + 1) rest).map
              (fun r => (Json.obj r.1, r.2))
      else if b = 91 then
        if 10000 ≤ depth then none
        else
          match skipSpace rest with
          | 93 :: rest2 => some (Json.arr [], rest2)
          | _ =>
            (parseElements (parseValue fuel (depth + 1)) (rest.length + 1) rest).map
              (fun r => (Json.arr r.1, r.2))
      else if b = 34 then
        (parseString (rest.length + 1) rest).map (fun r => (Json.str (String.mk r.1), r.2))
      else if [116, 114, 117, 101].isPrefixOf (b :: rest) then
        some (Json.bool true, rest.drop 3)
      else if [102, 97, 108, 115, 101].isPrefixOf (b :: rest) then
        some (Json.bool false, rest.drop 4)
      else if [110, 117, 108, 108].isPrefixOf (b :: rest) then some (Json.null, rest.drop 3)
      else if b = 45 ∨ isDigitByte b = true then
        (parseNumber (b :: rest)).map (fun r => (Json.num r.1, r.2))
      else none

/-- The JSON value that a text denotes: one value between blanks and nothing
else; `none` when the text is not valid JSON. -/
def jsonParse (text : List Nat) : Option Json :=
  match parseValue (text.length + 1) 0 text with
  | none => none
  | some (v, rest) => if skipSpace rest = [] then some v else none

/-- Decoding of a JSON value into a `float64` field holding `cur`: `null` leaves
the field as it is, a number is parsed by `strconv.ParseFloat` (an error when the
rounded value overflows), any other value is a type error. -/
def decodeFloat : Json → ℚ → Option ℚ
  | Json.null, cur => some cur
  | Json.num n, _ => if |f64 n.value| < 2 ^ 1024 then some (f64 n.value) else none
  | _, _ => none

/-- Decoding of a JSON value into an `int` field holding `cur`: a number is parsed
by `strconv.ParseInt` (an error unless it is an integer literal in the 64-bit
range). -/
def decodeInt : Json → Int → Option Int
  | Json.null, cur => some cur
  | Json.num n, _ =>
    if n.intLiteral ∧ -(2 : ℚ) ^ 63 ≤ n.value ∧ n.value < (2 : ℚ) ^ 63 then some n.value.num
    else none
  | _, _ => none

/-- Decoding of a JSON value into a `string` field holding `cur`. -/
def decodeString : Json → String → Option String
  | Json.null, cur => some cur
  | Json.str s, _ => some s
  | _, _ => none

/-- The field that a key of an object is stored into, among the fields with the
JSON names `names`: the field of that exact name, or else the first field whose
name equals the key up to case.  The comparison up to case (`bytes.EqualFold`) is
the parameter `eqFold`. -/
def fieldFor (eqFold : String → String → Bool) (names : List String) (key : String) :
    Option String :=
  match names.find? (fun name => name == key) with
  | some name => some name
  | none => names.find? (fun name => eqFold name key)

/-- Decoding of the members of a JSON object one after the other, `step` storing
one member; an error in a member makes the whole decoding an error. -/
def decodeMembers (step : CaddyLog → String → Json → Option CaddyLog) :
    List (String × Json) → CaddyLog → Option CaddyLog
  | [], l => some l
  | (k, v) :: ms, l =>
    match step l k v with
    | none => none
    | some l2 => decodeMembers step ms l2

/-- The JSON names of the fields of `Request`. -/
def requestFields : List String :=
  ["remote_ip", "method", "host", "uri"]

/-- The JSON names of the fields of `CaddyLog`. -/
def caddyLogFields : List String :=
  ["ts", "status", "duration", "request"]

/-- One member of the object under `request`; a key that belongs to no field is
ignored. -/
def setRequestField (eqFold : String → String → Bool) (l : CaddyLog) (key : String)
    (v : Json) : Option CaddyLog :=
  let field := fieldFor eqFold requestFields key
  if field = some "remote_ip" then
    (decodeString v l.RemoteIP).map (fun s => { l with RemoteIP := s })
  else if field = some "method" then
    (decodeString v l.Method).map (fun s => { l with Method := s })
  else if field = some "host" then (decodeString v l.Host).map (fun s => { l with Host := s })
  else if field = some "uri" then (decodeString v l.URI).map (fun s => { l with URI := s })
  else some l

/-- Decoding of a JSON value into the field `Request`. -/
def decodeRequest (eqFold : String → String → Bool) : Json → CaddyLog → Option CaddyLog
  | Json.null, l => some l
  | Json.obj ms, l => decodeMembers (setRequestField eqFold) ms l
  | _, _ => none

/-- One member of the top-level object. -/
def setField (eqFold : String → String → Bool) (l : CaddyLog) (key : String) (v : Json) :
    Option CaddyLog :=
  let field := fieldFor eqFold caddyLogFields key
  if field = some "ts" then
    (decodeFloat v l.Timestamp).map (fun x => { l with Timestamp := x })
  else if field = some "status" then
    (decodeInt v l.Status).map (fun x => { l with Status := x })
  else if field = some "duration" then
    (decodeFloat v l.Duration).map (fun x => { l with Duration := x })
  else if field = some "request" then decodeRequest eqFold v l
  else some l

/-- The result of `json.Unmarshal(data, &l)` for a fresh `var l CaddyLog`, on the
JSON value that `data` denotes: the entry when the error is `nil`, `none` when it
is not.  Fields without a member in the object keep their zero value. -/
def jsonUnmarshal (eqFold : String → String → Bool) : Json → Option CaddyLog
  | Json.null => some ⟨0, 0, 0, "", "", "", ""⟩
  | Json.obj ms => decodeMembers (setField eqFold) ms ⟨0, 0, 0, "", "", "", ""⟩
  | _ => none

/-- Decoding of one raw line: the entry, or `none` when `json.Unmarshal` returns
an error. -/
def decodeLine (eqFold : String → String → Bool) (line : List Nat) : Option CaddyLog :=
  match jsonParse line with
  | none => none
  | some v => jsonUnmarshal eqFold v

/-- The loop `for _, line := range rawLines` of `processLogs`, which builds
`newLogs`. -/
def decodeLines (eqFold : String → String → Bool) : List (List Nat) → List CaddyLog
  | [] => []
  | line :: rest =>
    if line = [] then decodeLines eqFold rest
    else
      match decodeLine eqFold line with
      | some l => l :: decodeLines eqFold rest
      | none => decodeLines eqFold rest

/-! ## Line rendering in `processLogs` -/

/-- The bytes of a text in UTF-8. -/
def utf8Bytes (s : List Char) : List Nat :=
  s.flatMap (fun c => (String.utf8EncodeChar c).map UInt8.toNat)

/-- The verb `%-Ns` of `fmt.Sprintf`: padding with blanks on the right up to `n`
runes. -/
def padRight (n : Nat) (s : List Char) : List Char :=
  s ++ List.replicate (n - s.length) ' '

/-- The verb `%Nd` of `fmt.Sprintf`, applied to the digits: padding with blanks on
the left up to `n` runes. -/
def padLeft (n : Nat) (s : List Char) : List Char :=
  List.replicate (n - s.length) ' ' ++ s

/-- The verb `%d` of `fmt.Sprintf`. -/
def formatInt (n : Int) : List Char :=
  (toString n).toList

/-- The text `out` that `processLogs` formats for an entry.  The formatting of the
time in the local time zone is the parameter `fmtTime`. -/
def formatEntry (fmtTime : Int → String) (isTerminal : Bool) (l : CaddyLog) : List Char :=
  let tm := (fmtTime (goInt l.Timestamp)).toList
  let st := formatInt l.Status
  let st :=
    if isTerminal then
      (if l.Status ≥ 400 then "\x1b[31m" else "\x1b[32m").toList ++ st ++ "\x1b[0m".toList
    else st
  tm ++ " | ".toList ++ padRight 15 l.RemoteIP.toList ++ " | ".toList ++ st ++ " | ".toList ++
    padRight 6 l.Method.toList ++ " | ".toList ++
    padLeft 4 (formatInt (goInt (f64 (l.Duration * 1000)))) ++ "ms | ".toList ++
    l.Host.toList ++ l.URI.toList

/-- The line that the snapshot loop adds to `finalOutput` for an entry, as bytes:
`out`, cut to `out[:width-3] + "..."` in dashboard mode when it is longer than
`width`.  The result is `none` when the slice expression is out of range, which
ends the program with a run-time panic. -/
def renderLine (fmtTime : Int → String) (isTerminal dash : Bool) (width : Int)
    (l : CaddyLog) : Option (List Nat) :=
  let out := utf8Bytes (formatEntry fmtTime isTerminal l)
  if dash && decide ((out.length : Int) > width) then
    if 0 ≤ width - 3 ∧ width - 3 ≤ (out.length : Int) then
      some (out.take (width - 3).toNat ++ utf8Bytes "...".toList)
    else none
  else some out

/-! ## Polling (`main`) -/

/-- The calls of `updateLineCount` made by the loop of `main`, one for each content
that the file has at the successive polls; the tracker after the last call. -/
def pollAll (t : Tracker) : List (List Nat) → Option Tracker
  | [] => some t
  | content :: rest =>
    match updateLineCount (some content) t with
    | none => none
    | some r => pollAll r.2.1 rest

/-! ## Specification-side definitions and sample inputs -/
/-- The lines of a file in the sense of the specification: the fragments between
line feeds, without an empty last fragment. -/
def fileLines (content : List Nat) : List (List Nat) :=
  let frags := stringsSplit 10 content
  if frags.getLast? = some [] then frags.dropLast else frags

/-- A file of `k` lines `abc`, each ended by a line feed. -/
def repLines (k : Nat) : List Nat :=
  (List.replicate k [97, 98, 99, 10]).flatten

/-- A log of 1025 four-byte lines, 4100 bytes long. -/
def bigFile : List Nat :=
  repLines 1025

/-- The per-entry filters of the snapshot loop taken together: host/IP,
hide-assets (in force unless show-all-history), errors-only and free-text. -/
def passesFilters (lower : Char → Char) (fl : Flags) (l : CaddyLog) : Bool :=
  !hostSkips lower fl l && !(!fl.all && (fl.ha && isAsset lower l.URI)) &&
    !(fl.e && decide (l.Status < 400)) && !findSkips lower fl l

/-- A log entry with the given time, status, source address and URI. -/
def mkEntry (ts : ℚ) (status : Int) (ip uri : String) : CaddyLog :=
  ⟨ts, status, 1 / 4, ip, "GET", "example.com", uri⟩

/-- A window of five entries. -/
def window5 : List CaddyLog :=
  [mkEntry 0 200 "10.0.0.1" "/", mkEntry 1 404 "10.0.0.2" "/a", mkEntry 2 500 "10.0.0.1" "/b",
   mkEntry 3 200 "10.0.0.3" "/c.png", mkEntry 4 404 "10.0.0.4" "/d"]

/-- The percentage that `LogStats` holds for the status class `k` (1 to 5). -/
def statusPct (s : LogStats) (k : Int) : ℚ :=
  if k = 1 then s.Status1xx
  else if k = 2 then s.Status2xx
  else if k = 3 then s.Status3xx
  else if k = 4 then s.Status4xx
  else if k = 5 then s.Status5xx
  else 0

/-- Fifty entries: 29 requests from `10.0.0.1`, then 21 from `10.0.0.2`. -/
def logs50 : List CaddyLog :=
  List.replicate 29 (mkEntry 0 200 "10.0.0.1" "/") ++
    List.replicate 21 (mkEntry 0 200 "10.0.0.2" "/")

/-- The text `sub` occurs in the text `s` as a contiguous piece. -/
def isSubstring (sub s : List Char) : Prop :=
  ∃ pre post : List Char, s = pre ++ sub ++ post

/-- The bytes with which a JSON value can begin: `{`, `[`, `"`, `-`, a digit, and
the first letters of `true`, `false` and `null`. -/
def startsValue (b : Nat) : Bool :=
  b = 123 || b = 91 || b = 34 || b = 45 || isDigitByte b || b = 116 || b = 102 || b = 110

/-- The object with the members `ms` has a member for the field `field`, among
the fields with the JSON names `names`. -/
def hasMemberFor (eqFold : String → String → Bool) (names : List String)
    (ms : List (String × Json)) (field : String) : Prop :=
  ∃ kv ∈ ms, fieldFor eqFold names kv.1 = some field

/-- Comparison of two names up to the case of ASCII letters. -/
def asciiFold (a b : String) : Bool :=
  a.toList.map Char.toLower == b.toList.map Char.toLower

/-- A rendering of the time that does not depend on the time zone database. -/
def fixedTime (_ : Int) : String :=
  "1970-01-01 | 00:00:00"

/-- The cursor invariant: `totalLines` is the number of line feeds in the first
`lastSize` bytes of the file, and `lastSize` is the size of the file. -/
def cursorInv (t : Tracker) (content : List Nat) : Prop :=
  t.totalLines = (content.take t.lastSize).count 10 ∧ t.lastSize = content.length

/-- A change of the file between two polls that the tracker follows: the new
content continues the old one (or equals it), or it is shorter than the old one. -/
def followedChange (old new : List Nat) : Prop :=
  (∃ added : List Nat, new = old ++ added) ∨ new.length < old.length

/-- The loop of `getLastLines` as the specification words it: the empty last
fragment is dropped on the first pass only (the pass that starts with the cursor
at 0), whatever the accumulated lines are. -/
def firstPassTrimLoop (content : List Nat) (fileSize bufSize n : Nat) :
    Nat → Nat → List (List Nat) → Option (List (List Nat))
  | 0, _, _ => none
  | fuel + 1, cursor, lines =>
    if cursor < fileSize then
      let cursor2 := if cursor + bufSize > fileSize then fileSize else cursor + bufSize
      let chunk := stringsSplit 10 (readAt content (fileSize - cursor2) bufSize)
      let chunk := if cursor = 0 ∧ chunk.getLast? = some [] then chunk.dropLast else chunk
      let lines := chunk ++ lines
      if lines.length > n then some (lines.drop (lines.length - n))
      else firstPassTrimLoop content fileSize bufSize n fuel cursor2 lines
    else some lines

/-- The fragments of the first pass of `getLastLines` on a file: those of its last
`min(4096, size)` bytes, without an empty last fragment. -/
def firstPassLines (content : List Nat) : List (List Nat) :=
  let bufSize := if content.length < 4096 then content.length else 4096
  let chunk := stringsSplit 10 (readAt content (content.length - bufSize) bufSize)
  if chunk.getLast? = some [] then chunk.dropLast else chunk

/-! ## Theorems -/

theorem stringsSplit_ne_nil {α : Type} [DecidableEq α] (sep : α) (s : List α) :
    stringsSplit sep s ≠ [] := by
  induction s with
  | nil => simp [stringsSplit]
  | cons c cs ih =>
    unfold stringsSplit
    split
    · simp
    · split <;> simp

theorem stringsSplit_append_sep {α : Type} [DecidableEq α] (sep : α) (line rest : List α)
    (h : ∀ x ∈ line, x ≠ sep) :
    stringsSplit sep (line ++ sep :: rest) = line :: stringsSplit sep rest := by
  induction line with
  | nil => simp [stringsSplit]
  | cons c cs ih =>
    have hc : c ≠ sep := h c (by simp)
    have ih2 := ih (fun x hx => h x (by simp [hx]))
    simp only [List.cons_append]
    rw [stringsSplit, if_neg hc, ih2]

theorem repLines_succ (k : Nat) : repLines (k + 1) = [97, 98, 99] ++ 10 :: repLines k := by
  simp [repLines, List.replicate_succ]

theorem repLines_add (a b : Nat) : repLines (a + b) = repLines a ++ repLines b := by
  unfold repLines
  rw [List.replicate_add, List.flatten_append]

theorem repLines_length (k : Nat) : (repLines k).length = 4 * k := by
  induction k with
  | zero => simp [repLines]
  | succ k ih => rw [repLines_succ]; simp [ih]; omega

theorem stringsSplit_repLines (k : Nat) :
    stringsSplit 10 (repLines k) = List.replicate k [97, 98, 99] ++ [[]] := by
  induction k with
  | zero => simp [repLines, stringsSplit]
  | succ k ih =>
    rw [repLines_succ, stringsSplit_append_sep 10 _ _ (by decide), ih, List.replicate_succ]
    rfl

theorem readAt_mid (a b c : List Nat) (off size : Nat) (ho : off = a.length)
    (hs : size = b.length) : readAt (a ++ b ++ c) off size = b := by
  subst ho hs
  simp [readAt]

theorem getLastLinesLoop_continue (content : List Nat) (fileSize bufSize n fuel cursor : Nat)
    (lines : List (List Nat)) (cursor2 : Nat) (chunk2 : List (List Nat))
    (h : cursor < fileSize)
    (hcur : cursor2 = if cursor + bufSize > fileSize then fileSize else cursor + bufSize)
    (hchunk : chunk2 =
      if lines.length = 0 ∧
          (stringsSplit 10 (readAt content (fileSize - cursor2) bufSize)).getLast? = some []
      then (stringsSplit 10 (readAt content (fileSize - cursor2) bufSize)).dropLast
      else stringsSplit 10 (readAt content (fileSize - cursor2) bufSize))
    (hle : (chunk2 ++ lines).length ≤ n) :
    getLastLinesLoop content fileSize bufSize n (fuel + 1) cursor lines =
      getLastLinesLoop content fileSize bufSize n fuel cursor2 (chunk2 ++ lines) := by
  rw [getLastLinesLoop, if_pos h]
  simp only
  rw [← hcur, ← hchunk, if_neg (by omega)]

theorem getLastLinesLoop_return (content : List Nat) (fileSize bufSize n fuel cursor : Nat)
    (lines : List (List Nat)) (cursor2 : Nat) (chunk2 : List (List Nat))
    (h : cursor < fileSize)
    (hcur : cursor2 = if cursor + bufSize > fileSize then fileSize else cursor + bufSize)
    (hchunk : chunk2 =
      if lines.length = 0 ∧
          (stringsSplit 10 (readAt content (fileSize - cursor2) bufSize)).getLast? = some []
      then (stringsSplit 10 (readAt content (fileSize - cursor2) bufSize)).dropLast
      else stringsSplit 10 (readAt content (fileSize - cursor2) bufSize))
    (hgt : n < (chunk2 ++ lines).length) :
    getLastLinesLoop content fileSize bufSize n (fuel + 1) cursor lines =
      some ((chunk2 ++ lines).drop ((chunk2 ++ lines).length - n)) := by
  rw [getLastLinesLoop, if_pos h]
  simp only
  rw [← hcur, ← hchunk, if_pos (by omega)]

theorem fileLines_repLines (k : Nat) : fileLines (repLines k) = List.replicate k [97, 98, 99] := by
  rw [fileLines, stringsSplit_repLines]
  simp

theorem getLastLines_bigFile_aux (r : List (List Nat)) (hr : r.length = 1024)
    (hsplit : stringsSplit 10 (repLines 1024) = r ++ [[]]) :
    getLastLines (some bigFile) 2000 = some ((r ++ [] :: r).drop 49, 4100) ∧
      ((r ++ [] :: r).drop 49).length = 2000 := by
  have hlen : bigFile.length = 4100 := by rw [bigFile, repLines_length]
  have h1 : readAt bigFile (4100 - 4096) 4096 = repLines 1024 := by
    have : bigFile = repLines 1 ++ repLines 1024 ++ [] := by
      rw [List.append_nil, ← repLines_add]; rfl
    rw [this]
    exact readAt_mid _ _ _ _ _ (by rw [repLines_length]) (by rw [repLines_length])
  have h2 : readAt bigFile (4100 - 4100) 4096 = repLines 1024 := by
    have : bigFile = [] ++ repLines 1024 ++ repLines 1 := by
      rw [List.nil_append, ← repLines_add]; rfl
    rw [this]
    exact readAt_mid _ _ _ _ _ (by simp) (by rw [repLines_length])
  refine ⟨?_, ?_⟩
  · simp only [getLastLines, hlen]
    rw [if_neg (by decide)]
    rw [getLastLinesLoop_continue bigFile 4100 4096 2000 4100 0 [] 4096 r
        (by decide) (by decide) (by rw [h1, hsplit]; simp) (by simp [hr])]
    rw [getLastLinesLoop_return bigFile 4100 4096 2000 4099 4096 (r ++ []) 4100 (r ++ [[]])
        (by decide) (by decide)
        (by rw [h2, hsplit, if_neg (by simp [hr])])
        (by simp [hr])]
    simp [hr]
  · simp [hr]

/-- C1 (evaluation at the failing input): on a 4100-byte file of 1025 lines `abc`
and `n = 2000`, `getLastLines` makes two passes and returns 2000 strings, among
them an empty one and the lines of the first 4096 bytes a second time, although
the file has only 1025 lines. -/
theorem getLastLines_bigFile :
    getLastLines (some bigFile) 2000 =
        some ((List.replicate 1024 [97, 98, 99] ++ [] :: List.replicate 1024 [97, 98, 99]).drop 49,
          4100) ∧
      ((List.replicate 1024 [97, 98, 99] ++ [] :: List.replicate 1024 [97, 98, 99]).drop 49).length
        = 2000 ∧
      fileLines bigFile = List.replicate 1025 [97, 98, 99] :=
  have h := getLastLines_bigFile_aux (List.replicate 1024 [97, 98, 99])
    (List.length_replicate _ _) (stringsSplit_repLines 1024)
  ⟨h.1, h.2, fileLines_repLines 1025⟩

theorem snapshotLoop_capped (lower : Char → Char) (fl : Flags) (hall : fl.all = false)
    (rest : List CaddyLog) :
    ∀ (out : List CaddyLog) (pc : Int),
      snapshotLoop lower fl rest out pc =
        ((rest.filter (passesFilters lower fl)).take (fl.lCount - pc).toNat).reverse ++ out := by
  induction rest with
  | nil => intro out pc; simp [snapshotLoop]
  | cons l rest ih =>
    intro out pc
    rw [snapshotLoop]
    by_cases h1 : hostSkips lower fl l = true
    · simp [h1, ih, passesFilters]
    · by_cases h2 : (fl.ha && isAsset lower l.URI) = true
      · simp [h1, h2, hall, ih, passesFilters]
      · by_cases h3 : pc ≥ fl.lCount
        · have h0 : (fl.lCount - pc).toNat = 0 := by omega
          simp [h1, h2, hall, h3, h0]
        · by_cases h4 : (fl.e && decide (l.Status < 400)) = true
          · simp [h1, h2, hall, h3, h4, ih, passesFilters]
          · by_cases h5 : findSkips lower fl l = true
            · simp [h1, h2, hall, h3, h4, h5, ih, passesFilters]
            · have hp : passesFilters lower fl l = true := by
                simp only [passesFilters, hall]
                simp only [Bool.not_eq_true] at h1 h2 h4 h5
                simp [h1, h2, h4, h5]
              have hn : (fl.lCount - pc).toNat = (fl.lCount - (pc + 1)).toNat + 1 := by omega
              simp only [Bool.not_eq_true] at h1 h2 h4 h5
              rw [if_neg (by simp [h1]), if_neg (by simp [h2, hall]), if_neg (by simp [hall, h3]),
                if_neg (by simp [h4]), if_neg (by simp [h5]), ih, List.filter_cons_of_pos hp, hn,
                List.take_succ_cons, List.reverse_cons, List.append_assoc]
              rfl

/-- C2: with show-all-history off, the entries printed by the snapshot loop are
the last `min (max c 0) m` entries of `P`, the window filtered by the per-entry
filters, `m` being the length of `P`; so they form a sub-sequence of the window in
window order, and there are at most `max c 0` of them. -/
theorem snapshot_last_of_filtered (lower : Char → Char) (fl : Flags) (hall : fl.all = false)
    (cachedLogs : List CaddyLog) :
    snapshot lower fl cachedLogs =
        (cachedLogs.filter (passesFilters lower fl)).drop
          ((cachedLogs.filter (passesFilters lower fl)).length -
            min (max fl.lCount 0).toNat (cachedLogs.filter (passesFilters lower fl)).length) ∧
      List.Sublist (snapshot lower fl cachedLogs) cachedLogs ∧
      ((snapshot lower fl cachedLogs).length : Int) ≤ max fl.lCount 0 := by
  have key : snapshot lower fl cachedLogs =
      (cachedLogs.filter (passesFilters lower fl)).drop
        ((cachedLogs.filter (passesFilters lower fl)).length -
          min (max fl.lCount 0).toNat (cachedLogs.filter (passesFilters lower fl)).length) := by
    rw [snapshot, snapshotLoop_capped lower fl hall, List.append_nil, List.filter_reverse,
      List.reverse_take, List.reverse_reverse, List.length_reverse]
    congr 1
    omega
  refine ⟨key, ?_, ?_⟩
  · rw [key]
    exact ((List.drop_sublist _ _).trans (List.filter_sublist _))
  · rw [key, List.length_drop]
    omega

/-- C2 (instance): a window of five entries, errors-only on and a count of 2. -/
theorem snapshot_last_of_filtered_witness :
    (⟨2, false, true, false, "", ""⟩ : Flags).all = false ∧
      snapshot Char.toLower ⟨2, false, true, false, "", ""⟩ window5 =
        (window5.filter (passesFilters Char.toLower ⟨2, false, true, false, "", ""⟩)).drop
          ((window5.filter (passesFilters Char.toLower ⟨2, false, true, false, "", ""⟩)).length -
            min (max (2 : Int) 0).toNat
              (window5.filter (passesFilters Char.toLower ⟨2, false, true, false, "", ""⟩)).length) :=
  ⟨rfl, (snapshot_last_of_filtered Char.toLower ⟨2, false, true, false, "", ""⟩ rfl window5).1⟩

theorem bytesCount_drop_split (content : List Nat) (pos size : Nat) :
    bytesCount (content.drop pos) =
      bytesCount (fileRead content pos size) + bytesCount (content.drop (pos + size)) := by
  unfold bytesCount fileRead
  rw [← List.count_append, ← List.drop_drop, List.take_append_drop]

theorem appendLoop_spec (content : List Nat) :
    ∀ (fuel pos bytesToRead totalLines : Nat) (log : ReadLog),
      pos + bytesToRead = content.length → bytesToRead < fuel →
      ∃ log2 : ReadLog,
        appendLoop content fuel pos bytesToRead totalLines log =
            some (totalLines + bytesCount (content.drop pos), log ++ log2) ∧
          (∀ r ∈ log2, pos ≤ r.1) ∧ (log2.map (fun r => r.2)).sum = bytesToRead := by
  intro fuel
  induction fuel with
  | zero => intro pos b t log _ h; omega
  | succ fuel ih =>
    intro pos b t log hpos hfuel
    rw [appendLoop]
    by_cases hb : b > 0
    · rw [if_pos hb]
      simp only
      have hlen : ∀ size, size ≤ b → (fileRead content pos size).length = size := by
        intro size hs
        simp [fileRead]
        omega
      by_cases hlt : b < 32 * 1024
      · rw [if_pos hlt, hlen b (Nat.le_refl b), if_pos hb, Nat.sub_self]
        obtain ⟨log2, h1, h2, h3⟩ := ih (pos + b) 0 (t + bytesCount (fileRead content pos b))
          (log ++ [(pos, b)]) (by omega) (by omega)
        refine ⟨(pos, b) :: log2, ?_, ?_, ?_⟩
        · rw [h1, bytesCount_drop_split content pos b]
          simp [Nat.add_assoc]
        · intro r hr
          rcases List.mem_cons.mp hr with h | h
          · simp [h]
          · exact Nat.le_trans (Nat.le_add_right _ _) (h2 r h)
        · simp [h3]
      · rw [if_neg hlt, hlen (32 * 1024) (by omega), if_pos (by decide)]
        obtain ⟨log2, h1, h2, h3⟩ := ih (pos + 32 * 1024) (b - 32 * 1024)
          (t + bytesCount (fileRead content pos (32 * 1024)))
          (log ++ [(pos, 32 * 1024)]) (by omega) (by omega)
        refine ⟨(pos, 32 * 1024) :: log2, ?_, ?_, ?_⟩
        · rw [h1, bytesCount_drop_split content pos (32 * 1024)]
          simp [Nat.add_assoc]
        · intro r hr
          rcases List.mem_cons.mp hr with h | h
          · simp [h]
          · exact Nat.le_trans (Nat.le_add_right _ _) (h2 r h)
        · simp [h3]
          omega
    · rw [if_neg hb]
      have hb0 : b = 0 := by omega
      refine ⟨[], ?_, ?_, ?_⟩
      · have : content.drop pos = [] := List.drop_eq_nil_of_le (by omega)
        simp [this, bytesCount]
      · simp
      · simp [hb0]

theorem countLoop_spec (content : List Nat) :
    ∀ (fuel pos count : Nat) (log : ReadLog),
      pos ≤ content.length → content.length - pos < fuel →
      ∃ log2 : ReadLog,
        countLoop content fuel pos count log =
          some (count + bytesCount (content.drop pos), log ++ log2) := by
  intro fuel
  induction fuel with
  | zero => intro pos c log _ h; omega
  | succ fuel ih =>
    intro pos c log hpos hfuel
    rw [countLoop]
    by_cases h0 : (fileRead content pos (32 * 1024)).length = 0
    · have hnil : fileRead content pos (32 * 1024) = [] := List.length_eq_zero.mp h0
      have hpos2 : content.drop pos = [] := by
        have : (fileRead content pos (32 * 1024)).length = min (32 * 1024) (content.length - pos) := by
          simp [fileRead]
        rw [h0] at this
        exact List.drop_eq_nil_of_le (by omega)
      refine ⟨[(pos, 0)], ?_⟩
      simp [h0, hpos2, bytesCount]
    · have hlen : (fileRead content pos (32 * 1024)).length = min (32 * 1024) (content.length - pos) := by
        simp [fileRead]
      obtain ⟨log2, h1⟩ := ih (pos + (fileRead content pos (32 * 1024)).length)
        (c + bytesCount (fileRead content pos (32 * 1024)))
        (log ++ [(pos, (fileRead content pos (32 * 1024)).length)]) (by omega) (by omega)
      refine ⟨(pos, (fileRead content pos (32 * 1024)).length) :: log2, ?_⟩
      rw [if_neg h0, if_pos (by omega), h1]
      have hsplit := bytesCount_drop_split content pos (fileRead content pos (32 * 1024)).length
      have hsame : fileRead content pos (fileRead content pos (32 * 1024)).length =
          fileRead content pos (32 * 1024) := by
        simp only [fileRead, List.length_take]
        rw [← List.take_take, List.take_length]
      rw [hsame] at hsplit
      rw [hsplit]
      simp [Nat.add_assoc]

theorem bytesCount_lines (ls : List (List Nat)) (h : ∀ l ∈ ls, 10 ∉ l) :
    bytesCount (ls.map (fun l => l ++ [10])).flatten = ls.length := by
  induction ls with
  | nil => simp [bytesCount]
  | cons l ls ih =>
    have h1 : 10 ∉ l := h l (by simp)
    have h2 := ih (fun x hx => h x (by simp [hx]))
    simp only [bytesCount] at h2 ⊢
    simp [List.count_eq_zero_of_not_mem h1, h2]

/-- C3: when the file is the content seen at the last poll followed by `k ≥ 1`
complete lines, each ended by a line feed, `updateLineCount` returns `true`, adds
`k` to `totalLines`, sets `lastSize` to the new size, and every read it makes
starts at or after the old `lastSize`, the reads covering the appended bytes
once. -/
theorem updateLineCount_append (t : Tracker) (old : List Nat) (ls : List (List Nat))
    (hold : old.length = t.lastSize) (hk : 1 ≤ ls.length) (hls : ∀ l ∈ ls, 10 ∉ l) :
    ∃ log : ReadLog,
      updateLineCount (some (old ++ (ls.map (fun l => l ++ [10])).flatten)) t =
          some (true,
            ⟨t.totalLines + ls.length, (old ++ (ls.map (fun l => l ++ [10])).flatten).length⟩,
            log) ∧
        (∀ r ∈ log, t.lastSize ≤ r.1) ∧
        (log.map (fun r => r.2)).sum = ((ls.map (fun l => l ++ [10])).flatten).length := by
  have hadd : 0 < ((ls.map (fun l => l ++ [10])).flatten).length := by
    cases ls with
    | nil => simp at hk
    | cons l ls => simp
  generalize hA : (ls.map (fun l => l ++ [10])).flatten = added at hadd
  have hcount : bytesCount added = ls.length := by rw [← hA]; exact bytesCount_lines ls hls
  obtain ⟨log2, h1, h2, h3⟩ := appendLoop_spec (old ++ added)
    ((old ++ added).length - t.lastSize + 1) t.lastSize ((old ++ added).length - t.lastSize)
    t.totalLines [] (by simp; omega) (by omega)
  refine ⟨log2, ?_, h2, ?_⟩
  · rw [updateLineCount]
    rw [if_neg (by simp; omega), if_pos (by simp; omega), h1]
    have : (old ++ added).drop t.lastSize = added := by rw [← hold]; simp
    simp [this, hcount]
  · rw [h3]; simp; omega

/-- C3 (instance): the file `a\n` grown by the two lines `bc\n` and `d\n`. -/
theorem updateLineCount_append_witness :
    ([97, 10] : List Nat).length = (⟨1, 2⟩ : Tracker).lastSize ∧
      1 ≤ ([[98, 99], [100]] : List (List Nat)).length ∧
      (∀ l ∈ ([[98, 99], [100]] : List (List Nat)), 10 ∉ l) ∧
      ∃ log : ReadLog,
        updateLineCount
            (some ([97, 10] ++ (([[98, 99], [100]] : List (List Nat)).map
              (fun l => l ++ [10])).flatten)) ⟨1, 2⟩ =
          some (true,
            ⟨(⟨1, 2⟩ : Tracker).totalLines + ([[98, 99], [100]] : List (List Nat)).length,
              ([97, 10] ++ (([[98, 99], [100]] : List (List Nat)).map
                (fun l => l ++ [10])).flatten).length⟩,
            log) ∧
        (∀ r ∈ log, (⟨1, 2⟩ : Tracker).lastSize ≤ r.1) ∧
        (log.map (fun r => r.2)).sum =
          ((([[98, 99], [100]] : List (List Nat)).map (fun l => l ++ [10])).flatten).length :=
  ⟨rfl, by decide, by decide,
    updateLineCount_append ⟨1, 2⟩ [97, 10] [[98, 99], [100]] rfl (by decide) (by decide)⟩

/-- C4: when the file is shorter than at the last poll, `updateLineCount` returns
`true` and leaves in the tracker the result of `countTotalLines`: the number of
line feeds of the whole content and its size, whatever `totalLines` was. -/
theorem updateLineCount_truncated (t : Tracker) (content : List Nat)
    (h : content.length < t.lastSize) :
    ∃ log : ReadLog,
      updateLineCount (some content) t =
          some (true, ⟨content.count 10, content.length⟩, log) ∧
        countTotalLines (some content) = some ((content.count 10, content.length), log) := by
  obtain ⟨log2, h1⟩ := countLoop_spec content (content.length + 2) 0 0 [] (by omega) (by omega)
  have hct : countTotalLines (some content) = some ((content.count 10, content.length), log2) := by
    rw [countTotalLines]
    simp [h1, bytesCount]
  refine ⟨log2, ?_, hct⟩
  rw [updateLineCount]
  rw [if_neg (by omega), if_neg (by omega), hct]
  rfl

/-- C4 (instance): a tracker at 7 lines and 20 bytes, the file now `a\nbc\n`. -/
theorem updateLineCount_truncated_witness :
    ([97, 10, 98, 99, 10] : List Nat).length < (⟨7, 20⟩ : Tracker).lastSize ∧
      ∃ log : ReadLog,
        updateLineCount (some [97, 10, 98, 99, 10]) ⟨7, 20⟩ =
            some (true, ⟨([97, 10, 98, 99, 10] : List Nat).count 10,
              ([97, 10, 98, 99, 10] : List Nat).length⟩, log) ∧
          countTotalLines (some [97, 10, 98, 99, 10]) =
            some ((([97, 10, 98, 99, 10] : List Nat).count 10,
              ([97, 10, 98, 99, 10] : List Nat).length), log) :=
  ⟨by decide, updateLineCount_truncated ⟨7, 20⟩ [97, 10, 98, 99, 10] (by decide)⟩

theorem statsStep_counts (a : StatsAcc) (l : CaddyLog) :
    (statsStep a l).count1 = a.count1 + (if 100 ≤ l.Status ∧ l.Status < 200 then 1 else 0) ∧
    (statsStep a l).count2 = a.count2 + (if 200 ≤ l.Status ∧ l.Status < 300 then 1 else 0) ∧
    (statsStep a l).count3 = a.count3 + (if 300 ≤ l.Status ∧ l.Status < 400 then 1 else 0) ∧
    (statsStep a l).count4 = a.count4 + (if 400 ≤ l.Status ∧ l.Status < 500 then 1 else 0) ∧
    (statsStep a l).count5 = a.count5 + (if 500 ≤ l.Status then 1 else 0) := by
  unfold statsStep
  simp only [ge_iff_le]
  refine ⟨?_, ?_, ?_, ?_, ?_⟩ <;> split_ifs <;> first | rfl | omega

theorem foldl_statsStep_counts (logs : List CaddyLog) :
    ∀ a : StatsAcc,
      (logs.foldl statsStep a).count1 =
          a.count1 + logs.countP (fun l => decide (100 ≤ l.Status ∧ l.Status < 200)) ∧
      (logs.foldl statsStep a).count2 =
          a.count2 + logs.countP (fun l => decide (200 ≤ l.Status ∧ l.Status < 300)) ∧
      (logs.foldl statsStep a).count3 =
          a.count3 + logs.countP (fun l => decide (300 ≤ l.Status ∧ l.Status < 400)) ∧
      (logs.foldl statsStep a).count4 =
          a.count4 + logs.countP (fun l => decide (400 ≤ l.Status ∧ l.Status < 500)) ∧
      (logs.foldl statsStep a).count5 =
          a.count5 + logs.countP (fun l => decide (500 ≤ l.Status)) := by
  induction logs with
  | nil => intro a; simp
  | cons l logs ih =>
    intro a
    obtain ⟨h1, h2, h3, h4, h5⟩ := ih (statsStep a l)
    obtain ⟨s1, s2, s3, s4, s5⟩ := statsStep_counts a l
    simp only [List.foldl_cons, List.countP_cons, decide_eq_true_eq]
    rw [h1, h2, h3, h4, h5, s1, s2, s3, s4, s5]
    refine ⟨?_, ?_, ?_, ?_, ?_⟩ <;> omega

theorem foldl_statsStep_minTs (logs : List CaddyLog) :
    ∀ a : StatsAcc,
      (logs.foldl statsStep a).minTs ≤ a.minTs ∧
      (∀ l ∈ logs, (logs.foldl statsStep a).minTs ≤ l.Timestamp) ∧
      ((logs.foldl statsStep a).minTs = a.minTs ∨
        ∃ l ∈ logs, l.Timestamp = (logs.foldl statsStep a).minTs) := by
  induction logs with
  | nil => intro a; simp
  | cons l logs ih =>
    intro a
    obtain ⟨h1, h2, h3⟩ := ih (statsStep a l)
    have hs : (statsStep a l).minTs = if l.Timestamp < a.minTs then l.Timestamp else a.minTs := by
      unfold statsStep
      simp only [ge_iff_le]
      split_ifs <;> rfl
    simp only [List.foldl_cons, List.mem_cons, forall_eq_or_imp, exists_eq_or_imp]
    rw [hs] at h1 h3
    refine ⟨?_, ⟨?_, h2⟩, ?_⟩
    · split_ifs at h1 with h
      · exact le_trans h1 (le_of_lt h)
      · exact h1
    · split_ifs at h1 with h
      · exact h1
      · exact le_trans h1 (not_lt.mp h)
    · rcases h3 with h3 | h3
      · split_ifs at h3 with h
        · exact Or.inr (Or.inl h3.symm)
        · exact Or.inl h3
      · exact Or.inr (Or.inr h3)

theorem foldl_statsStep_maxTs (logs : List CaddyLog) :
    ∀ a : StatsAcc,
      a.maxTs ≤ (logs.foldl statsStep a).maxTs ∧
      (∀ l ∈ logs, l.Timestamp ≤ (logs.foldl statsStep a).maxTs) ∧
      ((logs.foldl statsStep a).maxTs = a.maxTs ∨
        ∃ l ∈ logs, l.Timestamp = (logs.foldl statsStep a).maxTs) := by
  induction logs with
  | nil => intro a; simp
  | cons l logs ih =>
    intro a
    obtain ⟨h1, h2, h3⟩ := ih (statsStep a l)
    have hs : (statsStep a l).maxTs = if l.Timestamp > a.maxTs then l.Timestamp else a.maxTs := by
      unfold statsStep
      simp only [ge_iff_le]
      split_ifs <;> rfl
    simp only [List.foldl_cons, List.mem_cons, forall_eq_or_imp, exists_eq_or_imp]
    rw [hs] at h1 h3
    refine ⟨?_, ⟨?_, h2⟩, ?_⟩
    · split_ifs at h1 with h
      · exact le_trans (le_of_lt h) h1
      · exact h1
    · split_ifs at h1 with h
      · exact h1
      · exact le_trans (not_lt.mp h) h1
    · rcases h3 with h3 | h3
      · split_ifs at h3 with h
        · exact Or.inr (Or.inl h3.symm)
        · exact Or.inl h3
      · exact Or.inr (Or.inr h3)

/-- The status percentages of a non-empty list, in terms of the numbers of
entries in each range of status codes. -/
theorem calculateStats_pct (iter : List (String × Nat) → List (String × Nat))
    (logs : List CaddyLog) (hne : logs ≠ []) :
    (calculateStats iter logs).Status1xx =
        (logs.countP (fun l => decide (100 ≤ l.Status ∧ l.Status < 200)) : ℚ) / logs.length * 100 ∧
    (calculateStats iter logs).Status2xx =
        (logs.countP (fun l => decide (200 ≤ l.Status ∧ l.Status < 300)) : ℚ) / logs.length * 100 ∧
    (calculateStats iter logs).Status3xx =
        (logs.countP (fun l => decide (300 ≤ l.Status ∧ l.Status < 400)) : ℚ) / logs.length * 100 ∧
    (calculateStats iter logs).Status4xx =
        (logs.countP (fun l => decide (400 ≤ l.Status ∧ l.Status < 500)) : ℚ) / logs.length * 100 ∧
    (calculateStats iter logs).Status5xx =
        (logs.countP (fun l => decide (500 ≤ l.Status)) : ℚ) / logs.length * 100 := by
  cases logs with
  | nil => exact absurd rfl hne
  | cons l0 rest =>
    obtain ⟨h1, h2, h3, h4, h5⟩ := foldl_statsStep_counts (l0 :: rest)
      ⟨l0.Timestamp, l0.Timestamp, 0, [], 0, 0, 0, 0, 0⟩
    simp only [calculateStats]
    rw [h1, h2, h3, h4, h5]
    simp

theorem countP_classes (logs : List CaddyLog) (h : ∀ l ∈ logs, 100 ≤ l.Status) :
    logs.countP (fun l => decide (100 ≤ l.Status ∧ l.Status < 200)) +
      logs.countP (fun l => decide (200 ≤ l.Status ∧ l.Status < 300)) +
      logs.countP (fun l => decide (300 ≤ l.Status ∧ l.Status < 400)) +
      logs.countP (fun l => decide (400 ≤ l.Status ∧ l.Status < 500)) +
      logs.countP (fun l => decide (500 ≤ l.Status)) = logs.length := by
  induction logs with
  | nil => simp
  | cons l logs ih =>
    have h0 : 100 ≤ l.Status := h l (by simp)
    have ih2 := ih (fun x hx => h x (by simp [hx]))
    simp only [List.countP_cons, decide_eq_true_eq, List.length_cons]
    split_ifs <;> omega

/-- C5 (amended): for a non-empty list whose status codes are all at least 100,
the five percentages add up to 100. -/
theorem calculateStats_pct_sum (iter : List (String × Nat) → List (String × Nat))
    (logs : List CaddyLog) (hne : logs ≠ []) (h : ∀ l ∈ logs, 100 ≤ l.Status) :
    (calculateStats iter logs).Status1xx + (calculateStats iter logs).Status2xx +
      (calculateStats iter logs).Status3xx + (calculateStats iter logs).Status4xx +
      (calculateStats iter logs).Status5xx = 100 := by
  obtain ⟨h1, h2, h3, h4, h5⟩ := calculateStats_pct iter logs hne
  rw [h1, h2, h3, h4, h5]
  have hn : (logs.length : ℚ) ≠ 0 := by
    have : logs.length ≠ 0 := fun h0 => hne (List.length_eq_zero.mp h0)
    exact_mod_cast this
  have hsum := countP_classes logs h
  have hq : ((logs.countP (fun l => decide (100 ≤ l.Status ∧ l.Status < 200)) : ℚ) +
      logs.countP (fun l => decide (200 ≤ l.Status ∧ l.Status < 300)) +
      logs.countP (fun l => decide (300 ≤ l.Status ∧ l.Status < 400)) +
      logs.countP (fun l => decide (400 ≤ l.Status ∧ l.Status < 500)) +
      logs.countP (fun l => decide (500 ≤ l.Status))) = logs.length := by
    exact_mod_cast hsum
  have key : ∀ c1 c2 c3 c4 c5 n : ℚ, n ≠ 0 → c1 + c2 + c3 + c4 + c5 = n →
      c1 / n * 100 + c2 / n * 100 + c3 / n * 100 + c4 / n * 100 + c5 / n * 100 = 100 := by
    intro c1 c2 c3 c4 c5 n h0 hs
    field_simp
    linear_combination 100 * hs
  exact key _ _ _ _ _ _ hn hq

/-- C5 (instance): the window of five entries. -/
theorem calculateStats_pct_sum_witness :
    window5 ≠ [] ∧ (∀ l ∈ window5, 100 ≤ l.Status) ∧
      (calculateStats id window5).Status1xx + (calculateStats id window5).Status2xx +
        (calculateStats id window5).Status3xx + (calculateStats id window5).Status4xx +
        (calculateStats id window5).Status5xx = 100 :=
  ⟨by decide, by decide, calculateStats_pct_sum id window5 (by decide) (by decide)⟩

/-- C5 (counterexample): for the one-entry list whose status code is 0 the five
percentages are all 0, so their sum is 0 and not 100. -/
theorem calculateStats_pct_sum_status0 :
    [mkEntry 0 0 "10.0.0.1" "/"] ≠ [] ∧
      (calculateStats id [mkEntry 0 0 "10.0.0.1" "/"]).Status1xx +
        (calculateStats id [mkEntry 0 0 "10.0.0.1" "/"]).Status2xx +
        (calculateStats id [mkEntry 0 0 "10.0.0.1" "/"]).Status3xx +
        (calculateStats id [mkEntry 0 0 "10.0.0.1" "/"]).Status4xx +
        (calculateStats id [mkEntry 0 0 "10.0.0.1" "/"]).Status5xx = 0 := by
  refine ⟨by decide, ?_⟩
  obtain ⟨h1, h2, h3, h4, h5⟩ :=
    calculateStats_pct id [mkEntry 0 0 "10.0.0.1" "/"] (by decide)
  rw [h1, h2, h3, h4, h5]
  simp [mkEntry]

theorem tdiv_class (s k : Int) (hk : 1 ≤ k) :
    Int.tdiv s 100 = k ↔ 100 * k ≤ s ∧ s < 100 * k + 100 := by
  by_cases hs : 0 ≤ s
  · rw [Int.tdiv_eq_ediv hs (by decide)]
    omega
  · have h1 : Int.tdiv s 100 = -(Int.tdiv (-s) 100) := by
      rw [← Int.neg_tdiv, Int.neg_neg]
    have h2 : 0 ≤ Int.tdiv (-s) 100 := Int.tdiv_nonneg (by omega) (by decide)
    constructor
    · intro h; omega
    · intro h; omega

theorem countP_eq_length_of_all (logs : List CaddyLog) (p : CaddyLog → Bool)
    (h : ∀ l ∈ logs, p l = true) : logs.countP p = logs.length :=
  List.countP_eq_length.mpr h

theorem countP_eq_zero_of_none (logs : List CaddyLog) (p : CaddyLog → Bool)
    (h : ∀ l ∈ logs, p l = false) : logs.countP p = 0 :=
  List.countP_eq_zero.mpr (fun l hl => by simp [h l hl])

theorem calculateStats_three (iter : List (String × Nat) → List (String × Nat))
    (a b c : CaddyLog) (ha : a.Status = 200) (hb : b.Status = 404) (hc : c.Status = 500) :
    (calculateStats iter [a, b, c]).Status2xx = 100 / 3 ∧
      (calculateStats iter [a, b, c]).Status4xx = 100 / 3 ∧
      (calculateStats iter [a, b, c]).Status5xx = 100 / 3 ∧
      (calculateStats iter [a, b, c]).Status1xx = 0 ∧
      (calculateStats iter [a, b, c]).Status3xx = 0 ∧ round (100 / 3 : ℚ) = 33 := by
  obtain ⟨h1, h2, h3, h4, h5⟩ := calculateStats_pct iter [a, b, c] (by simp)
  rw [h1, h2, h3, h4, h5]
  simp only [List.countP_cons, List.countP_nil, ha, hb, hc, List.length_cons,
    List.length_nil]
  refine ⟨?_, ?_, ?_, ?_, ?_, ?_⟩
  · norm_num
  · norm_num
  · norm_num
  · norm_num
  · norm_num
  · rw [round_eq]
    norm_num [Int.floor_eq_iff]

/-- C6: the percentage of class `k` (for `k` from 1 to 4) is 100 times the number
of entries with `status / 100 = k` (Go integer division) over the number of
entries, and that of class 5 is 100 times the number of entries with
`status ≥ 500` over the number of entries; a list whose entries are all in one
class has 100 for it and 0 for the others; three entries of status 200, 404 and
500 have 100/3 (33 to the nearest integer) for the classes 2, 4 and 5, and 0 for
the classes 1 and 3. -/
theorem calculateStats_status_classes (iter : List (String × Nat) → List (String × Nat))
    (logs : List CaddyLog) (hne : logs ≠ []) :
    (∀ k : Int, 1 ≤ k → k ≤ 4 →
        statusPct (calculateStats iter logs) k =
          100 * (logs.countP (fun l => decide (Int.tdiv l.Status 100 = k)) : ℚ) / logs.length) ∧
      (calculateStats iter logs).Status5xx =
        100 * (logs.countP (fun l => decide (500 ≤ l.Status)) : ℚ) / logs.length ∧
      (∀ k : Int, 1 ≤ k → k ≤ 4 → (∀ l ∈ logs, Int.tdiv l.Status 100 = k) →
        statusPct (calculateStats iter logs) k = 100 ∧
          ∀ j : Int, j ≠ k → statusPct (calculateStats iter logs) j = 0) ∧
      ((∀ l ∈ logs, 500 ≤ l.Status) →
        statusPct (calculateStats iter logs) 5 = 100 ∧
          ∀ j : Int, j ≠ 5 → statusPct (calculateStats iter logs) j = 0) ∧
      (logs.map (fun l => l.Status) = [200, 404, 500] →
        (calculateStats iter logs).Status2xx = 100 / 3 ∧
          (calculateStats iter logs).Status4xx = 100 / 3 ∧
          (calculateStats iter logs).Status5xx = 100 / 3 ∧
          (calculateStats iter logs).Status1xx = 0 ∧
          (calculateStats iter logs).Status3xx = 0 ∧ round (100 / 3 : ℚ) = 33) := by
  obtain ⟨h1, h2, h3, h4, h5⟩ := calculateStats_pct iter logs hne
  have hn : (logs.length : ℚ) ≠ 0 := by
    have : logs.length ≠ 0 := fun h0 => hne (List.length_eq_zero.mp h0)
    exact_mod_cast this
  have hcong : ∀ k : Int, 1 ≤ k →
      logs.countP (fun l => decide (Int.tdiv l.Status 100 = k)) =
        logs.countP (fun l => decide (100 * k ≤ l.Status ∧ l.Status < 100 * k + 100)) := by
    intro k hk
    apply List.countP_congr
    intro l _
    simp only [decide_eq_true_eq]
    exact tdiv_class l.Status k hk
  have hpct : ∀ k : Int, 1 ≤ k → k ≤ 4 →
      statusPct (calculateStats iter logs) k =
        (logs.countP (fun l => decide (100 * k ≤ l.Status ∧ l.Status < 100 * k + 100)) : ℚ) /
          logs.length * 100 := by
    intro k hk1 hk4
    have hcases : k = 1 ∨ k = 2 ∨ k = 3 ∨ k = 4 := by omega
    rcases hcases with h | h | h | h <;> subst h
    · simpa [statusPct] using h1
    · simpa [statusPct] using h2
    · simpa [statusPct] using h3
    · simpa [statusPct] using h4
  have hpct5 : statusPct (calculateStats iter logs) 5 =
      (logs.countP (fun l => decide (500 ≤ l.Status)) : ℚ) / logs.length * 100 := by
    simpa [statusPct] using h5
  have hpct0 : ∀ j : Int, ¬ (1 ≤ j ∧ j ≤ 5) → statusPct (calculateStats iter logs) j = 0 := by
    intro j hj
    unfold statusPct
    rw [if_neg (by omega), if_neg (by omega), if_neg (by omega), if_neg (by omega),
      if_neg (by omega)]
  refine ⟨?_, ?_, ?_, ?_, ?_⟩
  · intro k hk1 hk4
    rw [hpct k hk1 hk4, hcong k hk1]
    ring
  · rw [h5]; ring
  · intro k hk1 hk4 hall
    have hin : ∀ l ∈ logs, 100 * k ≤ l.Status ∧ l.Status < 100 * k + 100 :=
      fun l hl => (tdiv_class l.Status k hk1).mp (hall l hl)
    refine ⟨?_, ?_⟩
    · rw [hpct k hk1 hk4, countP_eq_length_of_all logs _ (fun l hl => by simpa using hin l hl)]
      field_simp
    · intro j hj
      by_cases hj5 : j = 5
      · subst hj5
        rw [hpct5, countP_eq_zero_of_none logs _ (fun l hl => by
          have := hin l hl
          simp only [decide_eq_false_iff_not]
          omega)]
        simp
      · by_cases hjr : 1 ≤ j ∧ j ≤ 4
        · rw [hpct j hjr.1 hjr.2, countP_eq_zero_of_none logs _ (fun l hl => by
            have := hin l hl
            simp only [decide_eq_false_iff_not]
            omega)]
          simp
        · exact hpct0 j (by omega)
  · intro hall
    refine ⟨?_, ?_⟩
    · rw [hpct5, countP_eq_length_of_all logs _ (fun l hl => by simpa using hall l hl)]
      field_simp
    · intro j hj
      by_cases hjr : 1 ≤ j ∧ j ≤ 4
      · rw [hpct j hjr.1 hjr.2, countP_eq_zero_of_none logs _ (fun l hl => by
          have := hall l hl
          simp only [decide_eq_false_iff_not]
          omega)]
        simp
      · exact hpct0 j (by omega)
  · intro hst
    have hlen : logs.length = 3 := by
      have := congrArg List.length hst
      simpa using this
    match logs, hst, hlen with
    | [a, b, c], hst, _ =>
      simp only [List.map_cons, List.map_nil, List.cons.injEq, and_true] at hst
      exact calculateStats_three iter a b c hst.1 hst.2.1 hst.2.2

/-- C6 (instance): the window of five entries. -/
theorem calculateStats_status_classes_witness :
    window5 ≠ [] ∧
      (calculateStats id window5).Status5xx =
        100 * (window5.countP (fun l => decide (500 ≤ l.Status)) : ℚ) / window5.length :=
  ⟨by decide, (calculateStats_status_classes id window5 (by decide)).2.1⟩

/-- C7: for a non-empty list the request rate is the number of entries over the
difference between the largest and the smallest timestamp of the list, whatever
the order of the entries, and 0 when that difference is 0; in particular it is 0
when all timestamps are equal, and 3/2 for three entries with the timestamps 0, 1
and 2 in any order. -/
theorem calculateStats_RPS (iter : List (String × Nat) → List (String × Nat))
    (logs : List CaddyLog) (hne : logs ≠ []) :
    (∃ mn mx : ℚ,
        (∃ l ∈ logs, l.Timestamp = mn) ∧ (∀ l ∈ logs, mn ≤ l.Timestamp) ∧
        (∃ l ∈ logs, l.Timestamp = mx) ∧ (∀ l ∈ logs, l.Timestamp ≤ mx) ∧
        (calculateStats iter logs).RPS =
          if mn < mx then (logs.length : ℚ) / (mx - mn) else 0) ∧
      ((∀ l ∈ logs, ∀ l2 ∈ logs, l.Timestamp = l2.Timestamp) →
        (calculateStats iter logs).RPS = 0) ∧
      (List.Perm (logs.map (fun l => l.Timestamp)) [0, 1, 2] →
        (calculateStats iter logs).RPS = 3 / 2) := by
  have main : ∃ mn mx : ℚ,
      (∃ l ∈ logs, l.Timestamp = mn) ∧ (∀ l ∈ logs, mn ≤ l.Timestamp) ∧
      (∃ l ∈ logs, l.Timestamp = mx) ∧ (∀ l ∈ logs, l.Timestamp ≤ mx) ∧
      (calculateStats iter logs).RPS =
        if mn < mx then (logs.length : ℚ) / (mx - mn) else 0 := by
    cases logs with
    | nil => exact absurd rfl hne
    | cons l0 rest =>
      obtain ⟨_, hmin2, hmin3⟩ := foldl_statsStep_minTs (l0 :: rest)
        ⟨l0.Timestamp, l0.Timestamp, 0, [], 0, 0, 0, 0, 0⟩
      obtain ⟨_, hmax2, hmax3⟩ := foldl_statsStep_maxTs (l0 :: rest)
        ⟨l0.Timestamp, l0.Timestamp, 0, [], 0, 0, 0, 0, 0⟩
      refine ⟨_, _, ?_, hmin2, ?_, hmax2, ?_⟩
      · rcases hmin3 with h | h
        · exact ⟨l0, by simp, h.symm⟩
        · exact h
      · rcases hmax3 with h | h
        · exact ⟨l0, by simp, h.symm⟩
        · exact h
      · simp only [calculateStats, gt_iff_lt, sub_pos]
  refine ⟨main, ?_, ?_⟩
  · intro hall
    obtain ⟨mn, mx, ⟨l1, hl1, e1⟩, _, ⟨l2, hl2, e2⟩, _, hr⟩ := main
    have : ¬ mn < mx := by
      rw [← e1, ← e2, hall l1 hl1 l2 hl2]
      exact lt_irrefl _
    rw [hr, if_neg this]
  · intro hperm
    obtain ⟨mn, mx, ⟨l1, hl1, e1⟩, hmn, ⟨l2, hl2, e2⟩, hmx, hr⟩ := main
    have hmem : ∀ t : ℚ, t ∈ logs.map (fun l => l.Timestamp) ↔ t = 0 ∨ t = 1 ∨ t = 2 := by
      intro t
      rw [hperm.mem_iff]
      simp
    have hlen : logs.length = 3 := by
      have := hperm.length_eq
      simpa using this
    have get : ∀ t : ℚ, (t = 0 ∨ t = 1 ∨ t = 2) → ∃ l ∈ logs, l.Timestamp = t := by
      intro t ht
      have := (hmem t).mpr ht
      simpa using this
    have hmn0 : mn = 0 := by
      obtain ⟨l, hl, e⟩ := get 0 (Or.inl rfl)
      have h1 := hmn l hl
      have h2 := (hmem mn).mp (List.mem_map.mpr ⟨l1, hl1, e1⟩)
      rw [e] at h1
      rcases h2 with h | h | h
      · exact h
      · rw [h] at h1; norm_num at h1
      · rw [h] at h1; norm_num at h1
    have hmx2 : mx = 2 := by
      obtain ⟨l, hl, e⟩ := get 2 (Or.inr (Or.inr rfl))
      have h1 := hmx l hl
      have h2 := (hmem mx).mp (List.mem_map.mpr ⟨l2, hl2, e2⟩)
      rw [e] at h1
      rcases h2 with h | h | h
      · rw [h] at h1; norm_num at h1
      · rw [h] at h1; norm_num at h1
      · exact h
    rw [hr, hmn0, hmx2, hlen]
    norm_num

/-- C7 (instance): the window of five entries, with the timestamps 0 to 4. -/
theorem calculateStats_RPS_witness :
    window5 ≠ [] ∧
      ∃ mn mx : ℚ,
        (∃ l ∈ window5, l.Timestamp = mn) ∧ (∀ l ∈ window5, mn ≤ l.Timestamp) ∧
        (∃ l ∈ window5, l.Timestamp = mx) ∧ (∀ l ∈ window5, l.Timestamp ≤ mx) ∧
        (calculateStats id window5).RPS =
          if mn < mx then (window5.length : ℚ) / (mx - mn) else 0 :=
  ⟨by decide, (calculateStats_RPS id window5 (by decide)).1⟩

theorem snapshotLoop_mem (lower : Char → Char) (fl : Flags) (rest : List CaddyLog) :
    ∀ (out : List CaddyLog) (pc : Int) (l : CaddyLog),
      l ∈ snapshotLoop lower fl rest out pc →
        l ∈ out ∨ (l ∈ rest ∧ passesFilters lower fl l = true) := by
  induction rest with
  | nil => intro out pc l h; exact Or.inl (by simpa [snapshotLoop] using h)
  | cons x rest ih =>
    intro out pc l h
    have lift : ∀ (out2 : List CaddyLog) (pc2 : Int), out2 = out →
        l ∈ snapshotLoop lower fl rest out2 pc2 →
        l ∈ out ∨ (l ∈ x :: rest ∧ passesFilters lower fl l = true) := by
      intro out2 pc2 ho hm
      subst ho
      rcases ih _ _ l hm with h1 | h1
      · exact Or.inl h1
      · exact Or.inr ⟨List.mem_cons_of_mem _ h1.1, h1.2⟩
    rw [snapshotLoop] at h
    split_ifs at h with h1 h2 h3 h4 h5
    · exact lift _ _ rfl h
    · exact lift _ _ rfl h
    · exact Or.inl h
    · exact lift _ _ rfl h
    · exact lift _ _ rfl h
    · rcases ih _ _ l h with h6 | h6
      · rcases List.mem_cons.mp h6 with h7 | h7
        · subst h7
          refine Or.inr ⟨by simp, ?_⟩
          simp only [Bool.not_eq_true] at h1 h4 h5
          simp only [passesFilters, h1, h4, h5]
          revert h2
          cases fl.all <;> cases fl.ha <;> simp
        · exact Or.inl h7
      · exact Or.inr ⟨List.mem_cons_of_mem _ h6.1, h6.2⟩

theorem snapshot_mem (lower : Char → Char) (fl : Flags) (cachedLogs : List CaddyLog)
    (l : CaddyLog) (h : l ∈ snapshot lower fl cachedLogs) :
    l ∈ cachedLogs ∧ passesFilters lower fl l = true := by
  rcases snapshotLoop_mem lower fl cachedLogs.reverse [] 0 l h with h1 | h1
  · simp at h1
  · exact ⟨List.mem_reverse.mp h1.1, h1.2⟩

/-- C8: with errors-only on, every entry printed by the snapshot loop has a status
code of at least 400, and so has every entry that the live-follow filter accepts,
whatever the window, the count and the other flags. -/
theorem errorsOnly_excludes_below_400 (lower : Char → Char) (fl : Flags)
    (cachedLogs : List CaddyLog) (he : fl.e = true) :
    (∀ l ∈ snapshot lower fl cachedLogs, 400 ≤ l.Status) ∧
      (∀ l : CaddyLog, liveAccepts lower fl l = true → 400 ≤ l.Status) := by
  constructor
  · intro l hl
    have hp := (snapshot_mem lower fl cachedLogs l hl).2
    simp only [passesFilters, he, Bool.true_and, Bool.and_eq_true, Bool.not_eq_true',
      decide_eq_false_iff_not] at hp
    omega
  · intro l hl
    unfold liveAccepts at hl
    split_ifs at hl with h1 h2 h3 h4
    simp only [he, Bool.true_and, decide_eq_true_eq] at h3
    omega

/-- C8 (instance): the window of five entries with errors-only on, in
show-all-history mode. -/
theorem errorsOnly_excludes_below_400_witness :
    (⟨0, false, true, true, "", ""⟩ : Flags).e = true ∧
      (∀ l ∈ snapshot Char.toLower ⟨0, false, true, true, "", ""⟩ window5, 400 ≤ l.Status) :=
  ⟨rfl, (errorsOnly_excludes_below_400 Char.toLower ⟨0, false, true, true, "", ""⟩ window5 rfl).1⟩

theorem stringsSplit_head {α : Type} [DecidableEq α] (sep : α) (s : List α) :
    (stringsSplit sep s).headD [] = s.takeWhile (fun c => !decide (c = sep)) := by
  induction s with
  | nil => simp [stringsSplit]
  | cons c cs ih =>
    rw [stringsSplit]
    by_cases h : c = sep
    · simp [h]
    · rw [if_neg h]
      have hne := stringsSplit_ne_nil sep cs
      cases hsp : stringsSplit sep cs with
      | nil => exact absurd hsp hne
      | cons frag frags =>
        rw [hsp] at ih
        simp only [List.headD_cons] at ih
        simp [h, ← ih]

theorem lastIndexFrom_not_mem (c : Char) (s : List Char) (h : c ∉ s) :
    ∀ (i : Nat) (acc : Int), lastIndexFrom c s i acc = acc := by
  induction s with
  | nil => intro i acc; rfl
  | cons x xs ih =>
    intro i acc
    have hx : x ≠ c := fun e => h (by simp [e])
    rw [lastIndexFrom, if_neg hx]
    exact ih (fun hm => h (List.mem_cons_of_mem _ hm)) _ _

theorem lastIndexFrom_last (c : Char) (pre ext : List Char) (h : c ∉ ext) :
    ∀ (i : Nat) (acc : Int), lastIndexFrom c (pre ++ c :: ext) i acc = ((i + pre.length : Nat) : Int) := by
  induction pre with
  | nil =>
    intro i acc
    simp only [List.nil_append, List.length_nil, Nat.add_zero]
    rw [lastIndexFrom, if_pos rfl]
    exact lastIndexFrom_not_mem c ext h _ _
  | cons x xs ih =>
    intro i acc
    simp only [List.cons_append, List.length_cons]
    rw [lastIndexFrom, ih]
    congr 1
    omega

theorem exists_last_occurrence (c : Char) (s : List Char) (h : c ∈ s) :
    ∃ pre ext : List Char, s = pre ++ c :: ext ∧ c ∉ ext := by
  induction s with
  | nil => simp at h
  | cons x xs ih =>
    by_cases hx : c ∈ xs
    · obtain ⟨pre, ext, e, hn⟩ := ih hx
      exact ⟨x :: pre, ext, by simp [e], hn⟩
    · have hxc : c = x := by
        rcases List.mem_cons.mp h with h1 | h1
        · exact h1
        · exact absurd h1 hx
      exact ⟨[], xs, by simp [hxc], hx⟩

theorem isAsset_of_last_dot (lower : Char → Char) (uri : String) (pre ext : List Char)
    (hclean : uri.toList.takeWhile (fun c => !decide (c = '?')) = pre ++ '.' :: ext)
    (hext : '.' ∉ ext) :
    isAsset lower uri = assets.contains (String.mk (('.' :: ext).map lower)) := by
  unfold isAsset
  simp only
  rw [stringsSplit_head, hclean, stringsLastIndex, lastIndexFrom_last '.' pre ext hext]
  have h1 : (((0 + pre.length : Nat) : Int) ≠ -1) := by omega
  have h2 : ((0 + pre.length : Nat) : Int).toNat = pre.length := by omega
  rw [h2, List.drop_left]
  simp [h1, stringsToLower]

theorem isAsset_of_no_dot (lower : Char → Char) (uri : String)
    (h : '.' ∉ uri.toList.takeWhile (fun c => !decide (c = '?'))) :
    isAsset lower uri = false := by
  unfold isAsset
  simp only
  rw [stringsSplit_head, stringsLastIndex, lastIndexFrom_not_mem '.' _ h]
  simp

theorem takeWhile_before_query (p q : List Char) (h : '?' ∉ p) :
    (p ++ '?' :: q).takeWhile (fun c => !decide (c = '?')) = p := by
  induction p with
  | nil => simp
  | cons x xs ih =>
    have hx : x ≠ '?' := fun e => h (by simp [e])
    simp [hx, ih (fun hm => h (List.mem_cons_of_mem _ hm))]

theorem takeWhile_no_query (p : List Char) (h : '?' ∉ p) :
    p.takeWhile (fun c => !decide (c = '?')) = p := by
  induction p with
  | nil => simp
  | cons x xs ih =>
    have hx : x ≠ '?' := fun e => h (by simp [e])
    rw [List.takeWhile_cons, ih (fun hm => h (List.mem_cons_of_mem _ hm))]
    simp [hx]

/-- C9: `isAsset uri` holds exactly when the part of the URI before its first `?`
has the form `pre ++ "." ++ ext` with no `.` in `ext` and the lower-cased text
`"." ++ ext` is a key of the table.  So, `lower` being Go's mapping on the ASCII
characters, a URI whose path ends in `.png` or `.PNG`, followed by the query
`?v=2`, is an asset and is never printed by the snapshot loop when hide-assets is
in force, and a URI without query that ends in `.html` is not an asset and, no
other filter being set, is printed. -/
theorem isAsset_iff (lower : Char → Char) (uri : String) :
    (isAsset lower uri = true ↔
        ∃ pre ext : List Char,
          uri.toList.takeWhile (fun c => !decide (c = '?')) = pre ++ '.' :: ext ∧ '.' ∉ ext ∧
            String.mk (('.' :: ext).map lower) ∈ assets) ∧
      ((∀ c : Char, c.toNat < 128 → lower c = c.toLower) →
        ∀ p : List Char, '?' ∉ p →
          isAsset lower (String.mk (p ++ ".png?v=2".toList)) = true ∧
          isAsset lower (String.mk (p ++ ".PNG?v=2".toList)) = true ∧
          isAsset lower (String.mk (p ++ ".html".toList)) = false ∧
          (∀ (fl : Flags) (cachedLogs : List CaddyLog), fl.ha = true → fl.all = false →
            ∀ l ∈ snapshot lower fl cachedLogs,
              l.URI ≠ String.mk (p ++ ".png?v=2".toList) ∧
              l.URI ≠ String.mk (p ++ ".PNG?v=2".toList)) ∧
          (∀ l : CaddyLog, l.URI = String.mk (p ++ ".html".toList) →
            snapshot lower ⟨1, true, false, false, "", ""⟩ [l] = [l])) := by
  constructor
  · constructor
    · intro h
      by_cases hdot : '.' ∈ uri.toList.takeWhile (fun c => !decide (c = '?'))
      · obtain ⟨pre, ext, e, hn⟩ := exists_last_occurrence '.' _ hdot
        refine ⟨pre, ext, e, hn, ?_⟩
        rw [isAsset_of_last_dot lower uri pre ext e hn] at h
        simpa using h
      · rw [isAsset_of_no_dot lower uri hdot] at h
        exact absurd h (by simp)
    · rintro ⟨pre, ext, e, hn, hmem⟩
      rw [isAsset_of_last_dot lower uri pre ext e hn]
      simpa using hmem
  · intro hlow p hp
    have hpng : isAsset lower (String.mk (p ++ ".png?v=2".toList)) = true := by
      rw [isAsset_of_last_dot lower _ p ['p', 'n', 'g']
        (by
          have : p ++ ".png?v=2".toList = (p ++ ['.', 'p', 'n', 'g']) ++ '?' :: ['v', '=', '2'] := by
            simp
          rw [show (String.mk (p ++ ".png?v=2".toList)).toList = p ++ ".png?v=2".toList from rfl,
            this, takeWhile_before_query _ _ (by simpa using hp)])
        (by decide)]
      simp only [List.map_cons, List.map_nil]
      rw [hlow '.' (by decide), hlow 'p' (by decide), hlow 'n' (by decide), hlow 'g' (by decide)]
      decide
    have hPNG : isAsset lower (String.mk (p ++ ".PNG?v=2".toList)) = true := by
      rw [isAsset_of_last_dot lower _ p ['P', 'N', 'G']
        (by
          have : p ++ ".PNG?v=2".toList = (p ++ ['.', 'P', 'N', 'G']) ++ '?' :: ['v', '=', '2'] := by
            simp
          rw [show (String.mk (p ++ ".PNG?v=2".toList)).toList = p ++ ".PNG?v=2".toList from rfl,
            this, takeWhile_before_query _ _ (by simpa using hp)])
        (by decide)]
      simp only [List.map_cons, List.map_nil]
      rw [hlow '.' (by decide), hlow 'P' (by decide), hlow 'N' (by decide), hlow 'G' (by decide)]
      decide
    have hhtml : isAsset lower (String.mk (p ++ ".html".toList)) = false := by
      rw [isAsset_of_last_dot lower _ p ['h', 't', 'm', 'l']
        (by
          rw [show (String.mk (p ++ ".html".toList)).toList = p ++ ".html".toList from rfl,
            takeWhile_no_query _ (by simpa using hp)]
          rfl)
        (by decide)]
      simp only [List.map_cons, List.map_nil]
      rw [hlow '.' (by decide), hlow 'h' (by decide), hlow 't' (by decide), hlow 'm' (by decide),
        hlow 'l' (by decide)]
      decide
    refine ⟨hpng, hPNG, hhtml, ?_, ?_⟩
    · intro fl cachedLogs hha hall l hl
      have hpass := (snapshot_mem lower fl cachedLogs l hl).2
      have hna : isAsset lower l.URI = false := by
        simp only [passesFilters, hha, hall, Bool.not_false, Bool.true_and, Bool.and_eq_true,
          Bool.not_eq_true'] at hpass
        exact hpass.1.1.2
      constructor
      · intro e; rw [e, hpng] at hna; exact absurd hna (by simp)
      · intro e; rw [e, hPNG] at hna; exact absurd hna (by simp)
    · intro l hl
      have hna : isAsset lower l.URI = false := by rw [hl]; exact hhtml
      simp [snapshot, snapshotLoop, hostSkips, findSkips, hna]

/-- C9 (instance): `/img/logo.PNG?v=2` is an asset and `/img/logo.html` is not. -/
theorem isAsset_iff_witness :
    (∀ c : Char, c.toNat < 128 → Char.toLower c = c.toLower) ∧ '?' ∉ "/img/logo".toList ∧
      isAsset Char.toLower (String.mk ("/img/logo".toList ++ ".PNG?v=2".toList)) = true ∧
      isAsset Char.toLower (String.mk ("/img/logo".toList ++ ".html".toList)) = false :=
  ⟨fun _ _ => rfl, by decide,
    ((isAsset_iff Char.toLower "").2 (fun _ _ => rfl) "/img/logo".toList (by decide)).2.1,
    ((isAsset_iff Char.toLower "").2 (fun _ _ => rfl) "/img/logo".toList (by decide)).2.2.1⟩

theorem ipMapIncr_keys (m : List (String × Nat)) (ip : String) :
    (ipMapIncr m ip).map Prod.fst =
      if ip ∈ m.map Prod.fst then m.map Prod.fst else m.map Prod.fst ++ [ip] := by
  induction m with
  | nil => simp [ipMapIncr]
  | cons kv rest ih =>
    obtain ⟨k, v⟩ := kv
    rw [ipMapIncr]
    by_cases h : k = ip
    · simp [h]
    · have h2 : ¬ ip = k := fun e => h e.symm
      rw [if_neg h]
      simp only [List.map_cons, List.mem_cons, h2, false_or, ih]
      split_ifs <;> simp

theorem mem_ipMapIncr (m : List (String × Nat)) (ip : String)
    (hnd : (m.map Prod.fst).Nodup) (k : String) (v : Nat) :
    (k, v) ∈ ipMapIncr m ip ↔
      (k ≠ ip ∧ (k, v) ∈ m) ∨
        (k = ip ∧ ((ip ∉ m.map Prod.fst ∧ v = 1) ∨ ∃ v0, (ip, v0) ∈ m ∧ v = v0 + 1)) := by
  induction m with
  | nil => simp [ipMapIncr]
  | cons kv rest ih =>
    obtain ⟨k0, v0⟩ := kv
    have hnd2 : (rest.map Prod.fst).Nodup := (List.nodup_cons.mp hnd).2
    have hk0 : k0 ∉ rest.map Prod.fst := (List.nodup_cons.mp hnd).1
    have hk0v : ∀ w, (k0, w) ∉ rest := fun w hw => hk0 (List.mem_map.mpr ⟨(k0, w), hw, rfl⟩)
    rw [ipMapIncr]
    by_cases h : k0 = ip
    · subst h
      rw [if_pos rfl]
      by_cases hk : k = k0
      · subst hk
        simp [hk0v]
      · simp [hk]
    · rw [if_neg h]
      have h2 : ¬ ip = k0 := fun e => h e.symm
      by_cases hk : k = ip
      · subst hk
        simp [h, h2, ih hnd2]
      · by_cases hk2 : k = k0
        · subst hk2
          simp [h, hk, hk0v, ih hnd2]
        · simp [h, h2, hk, hk2, ih hnd2]

theorem tally_invariant (rest : List CaddyLog) :
    ∀ (seen : List CaddyLog) (m : List (String × Nat)),
      (m.map Prod.fst).Nodup →
      (∀ k v, (k, v) ∈ m ↔ (v = seen.countP (fun x => decide (x.RemoteIP = k)) ∧ 0 < v)) →
      ((rest.foldl (fun m l => ipMapIncr m l.RemoteIP) m).map Prod.fst).Nodup ∧
        ∀ k v, (k, v) ∈ rest.foldl (fun m l => ipMapIncr m l.RemoteIP) m ↔
          (v = (seen ++ rest).countP (fun x => decide (x.RemoteIP = k)) ∧ 0 < v) := by
  induction rest with
  | nil => intro seen m hnd hm; simpa using ⟨hnd, hm⟩
  | cons l rest ih =>
    intro seen m hnd hm
    have hnd2 : ((ipMapIncr m l.RemoteIP).map Prod.fst).Nodup := by
      rw [ipMapIncr_keys]
      split_ifs with h
      · exact hnd
      · exact List.Nodup.append hnd (List.nodup_singleton _) (by simpa using h)
    have hkey : l.RemoteIP ∈ m.map Prod.fst ↔
        0 < seen.countP (fun x => decide (x.RemoteIP = l.RemoteIP)) := by
      constructor
      · intro h
        obtain ⟨⟨k, v⟩, hkv, e⟩ := List.mem_map.mp h
        simp only at e
        rw [← e]
        have := (hm k v).mp hkv
        omega
      · intro h
        exact List.mem_map.mpr ⟨(l.RemoteIP, _), (hm _ _).mpr ⟨rfl, h⟩, rfl⟩
    have hm2 : ∀ k v, (k, v) ∈ ipMapIncr m l.RemoteIP ↔
        (v = (seen ++ [l]).countP (fun x => decide (x.RemoteIP = k)) ∧ 0 < v) := by
      intro k v
      rw [mem_ipMapIncr m l.RemoteIP hnd k v, List.countP_append]
      by_cases hk : k = l.RemoteIP
      · subst hk
        simp only [ne_eq, not_true_eq_false, false_and, false_or, true_and, List.countP_cons,
          List.countP_nil, decide_True, if_true, Nat.zero_add]
        rw [hkey]
        constructor
        · rintro (⟨h1, h2⟩ | ⟨v0, h1, h2⟩)
          · omega
          · have := (hm _ _).mp h1
            omega
        · rintro ⟨h1, _⟩
          by_cases h0 : 0 < seen.countP (fun x => decide (x.RemoteIP = l.RemoteIP))
          · exact Or.inr ⟨_, (hm _ _).mpr ⟨rfl, h0⟩, h1⟩
          · exact Or.inl ⟨h0, by omega⟩
      · have hk2 : ¬ l.RemoteIP = k := fun e => hk e.symm
        simp only [ne_eq, hk, not_false_eq_true, true_and, false_and, or_false,
          List.countP_cons, List.countP_nil, hk2, decide_False, Nat.add_zero]
        simpa using hm k v
    have := ih (seen ++ [l]) (ipMapIncr m l.RemoteIP) hnd2 hm2
    simpa [List.append_assoc] using this

theorem foldl_statsStep_ipMap (logs : List CaddyLog) :
    ∀ a : StatsAcc,
      (logs.foldl statsStep a).ipMap = logs.foldl (fun m l => ipMapIncr m l.RemoteIP) a.ipMap := by
  induction logs with
  | nil => intro a; rfl
  | cons l logs ih =>
    intro a
    have hs : (statsStep a l).ipMap = ipMapIncr a.ipMap l.RemoteIP := by
      unfold statsStep
      simp only [ge_iff_le]
      split_ifs <;> rfl
    simp only [List.foldl_cons]
    rw [ih, hs]

theorem foldl_topStep (es : List (String × Nat)) :
    ∀ t : String × Nat,
      t.2 ≤ (es.foldl topStep t).2 ∧ (∀ kv ∈ es, kv.2 ≤ (es.foldl topStep t).2) ∧
        (es.foldl topStep t = t ∨ es.foldl topStep t ∈ es) := by
  induction es with
  | nil => intro t; simp
  | cons kv es ih =>
    intro t
    obtain ⟨h1, h2, h3⟩ := ih (topStep t kv)
    simp only [List.foldl_cons, List.mem_cons, forall_eq_or_imp]
    by_cases h : kv.2 > t.2
    · have hs : topStep t kv = kv := by
        unfold topStep
        rw [if_pos h]
      rw [hs] at h1 h2 h3 ⊢
      refine ⟨by omega, ⟨h1, h2⟩, ?_⟩
      rcases h3 with h3 | h3
      · exact Or.inr (Or.inl h3)
      · exact Or.inr (Or.inr h3)
    · have hs : topStep t kv = t := by
        unfold topStep
        rw [if_neg h]
      rw [hs] at h1 h2 h3 ⊢
      refine ⟨h1, ⟨by omega, h2⟩, ?_⟩
      rcases h3 with h3 | h3
      · exact Or.inl h3
      · exact Or.inr (Or.inr h3)

/-- The part of C10 that holds: for every order of iteration over the tally (a
permutation of its entries), the address reported for a non-empty list is the
source address of one of its entries, and no address occurs more often. -/
theorem calculateStats_topIP_most_frequent
    (iter : List (String × Nat) → List (String × Nat)) (hiter : ∀ m, List.Perm (iter m) m)
    (logs : List CaddyLog) (hne : logs ≠ []) :
    (∃ l ∈ logs, l.RemoteIP = (calculateStats iter logs).TopIP) ∧
      ∀ l ∈ logs,
        logs.countP (fun x => decide (x.RemoteIP = l.RemoteIP)) ≤
          logs.countP (fun x => decide (x.RemoteIP = (calculateStats iter logs).TopIP)) := by
  cases logs with
  | nil => exact absurd rfl hne
  | cons l0 rest =>
    have hmap := foldl_statsStep_ipMap (l0 :: rest) ⟨l0.Timestamp, l0.Timestamp, 0, [], 0, 0, 0, 0, 0⟩
    obtain ⟨_, hm⟩ := tally_invariant (l0 :: rest) [] [] (by simp) (by simp)
    simp only [List.nil_append] at hm
    rw [← hmap] at hm
    generalize hM : ((l0 :: rest).foldl statsStep
      ⟨l0.Timestamp, l0.Timestamp, 0, [], 0, 0, 0, 0, 0⟩).ipMap = m at hm
    have htop : (calculateStats iter (l0 :: rest)).TopIP = ((iter m).foldl topStep ("", 0)).1 := by
      simp only [calculateStats, hM]
    rw [htop]
    obtain ⟨_, h2, h3⟩ := foldl_topStep (iter m) ("", 0)
    have hmem : ∀ kv, kv ∈ iter m ↔ kv ∈ m := fun kv => (hiter m).mem_iff
    have hpos : ∀ l ∈ l0 :: rest,
        (l.RemoteIP, (l0 :: rest).countP (fun x => decide (x.RemoteIP = l.RemoteIP))) ∈ m := by
      intro l hl
      refine (hm _ _).mpr ⟨rfl, ?_⟩
      exact List.countP_pos_iff.mpr ⟨l, hl, by simp⟩
    have hin : (iter m).foldl topStep ("", 0) ∈ m := by
      rcases h3 with h3 | h3
      · have := h2 _ ((hmem _).mpr (hpos l0 (by simp)))
        rw [h3] at this
        have hp : 0 < (l0 :: rest).countP (fun x => decide (x.RemoteIP = l0.RemoteIP)) :=
          List.countP_pos_iff.mpr ⟨l0, by simp, by simp⟩
        simp only at this
        omega
      · exact (hmem _).mp h3
    have hval := (hm _ _).mp hin
    constructor
    · obtain ⟨x, hx, hxp⟩ := List.countP_pos_iff.mp (hval.1 ▸ hval.2)
      exact ⟨x, hx, by simpa using hxp⟩
    · intro l hl
      have := h2 _ ((hmem _).mpr (hpos l hl))
      simp only at this
      rw [← hval.1]
      exact this

/-- C10 (evaluation at the failing input): for 50 entries of which 29 come from
`10.0.0.1` and 21 from `10.0.0.2`, `calculateStats` reports `10.0.0.1` with
`TopIPPct = 57`, although `100 * 29 / 50` is exactly 58: the `float64` quotient
`29.0 / 50.0` lies below 0.58 and its product with 100 below 58. -/
theorem calculateStats_topIPPct_logs50 :
    logs50.length = 50 ∧
      logs50.countP (fun l => decide (l.RemoteIP = "10.0.0.1")) = 29 ∧
      (calculateStats id logs50).TopIP = "10.0.0.1" ∧
      (calculateStats id logs50).TopIPPct = 57 ∧
      (100 * 29 / 50 : Int) = 58 := by
  decide!

theorem stringsContains_iff (s sub : List Char) :
    stringsContains s sub = true ↔ isSubstring sub s := by
  unfold isSubstring
  induction s with
  | nil =>
    rw [stringsContains]
    constructor
    · intro h
      exact ⟨[], [], by simpa using h⟩
    · rintro ⟨pre, post, h⟩
      have h2 := congrArg List.length h
      simp only [List.length_nil, List.length_append] at h2
      have : sub.length = 0 := by omega
      simpa using List.length_eq_zero.mp this
  | cons c cs ih =>
    rw [stringsContains, Bool.or_eq_true, ih, List.isPrefixOf_iff_prefix]
    constructor
    · rintro (⟨post, h⟩ | ⟨pre, post, h⟩)
      · exact ⟨[], post, by simpa using h.symm⟩
      · exact ⟨c :: pre, post, by simp [h]⟩
    · rintro ⟨pre, post, h⟩
      cases pre with
      | nil => exact Or.inl ⟨post, by simpa using h.symm⟩
      | cons x pre =>
        simp only [List.cons_append, List.cons.injEq] at h
        exact Or.inr ⟨pre, post, h.2⟩

theorem snapshotLoop_all (lower : Char → Char) (fl : Flags) (hall : fl.all = true)
    (rest : List CaddyLog) :
    ∀ (out : List CaddyLog) (pc : Int),
      snapshotLoop lower fl rest out pc =
        (rest.filter (passesFilters lower fl)).reverse ++ out := by
  induction rest with
  | nil => intro out pc; simp [snapshotLoop]
  | cons l rest ih =>
    intro out pc
    rw [snapshotLoop]
    by_cases h1 : hostSkips lower fl l = true
    · simp [h1, ih, passesFilters]
    · by_cases h4 : (fl.e && decide (l.Status < 400)) = true
      · simp [h1, hall, h4, ih, passesFilters]
      · by_cases h5 : findSkips lower fl l = true
        · simp [h1, hall, h4, h5, ih, passesFilters]
        · have hp : passesFilters lower fl l = true := by
            simp only [passesFilters, hall]
            simp only [Bool.not_eq_true] at h1 h4 h5
            simp [h1, h4, h5]
          simp only [Bool.not_eq_true] at h1 h4 h5
          rw [if_neg (by simp [h1]), if_neg (by simp [hall]), if_neg (by simp [hall]),
            if_neg (by simp [h4]), if_neg (by simp [h5]), ih, List.filter_cons_of_pos hp,
            List.reverse_cons, List.append_assoc]
          rfl

theorem snapshot_all (lower : Char → Char) (fl : Flags) (hall : fl.all = true)
    (cachedLogs : List CaddyLog) :
    snapshot lower fl cachedLogs = cachedLogs.filter (passesFilters lower fl) := by
  rw [snapshot, snapshotLoop_all lower fl hall, List.append_nil, List.filter_reverse,
    List.reverse_reverse]

theorem map_lower_ascii (lower : Char → Char)
    (hlow : ∀ c : Char, c.toNat < 128 → lower c = c.toLower) (s : List Char)
    (hs : ∀ c ∈ s, c.toNat < 128 ∧ c.toLower = c) : s.map lower = s := by
  induction s with
  | nil => rfl
  | cons c cs ih =>
    have h1 := hs c (by simp)
    rw [List.map_cons, hlow c h1.1, h1.2, ih (fun x hx => hs x (by simp [hx]))]

/-- C11: in show-all-history mode with a non-empty host filter `h` and neither
errors-only nor a free-text filter, the entries printed are exactly the entries of
the window for which the lower-cased `h` occurs in the lower-cased source address
or in the lower-cased host, in window order.  With the filter `10.0.0` (and Go's
lower-casing of ASCII) an entry from `10.0.0.5` and an entry for the host
`api-10.0.0.dev` satisfy the test. -/
theorem snapshot_host_filter (lower : Char → Char) (fl : Flags) (cachedLogs : List CaddyLog)
    (hall : fl.all = true) (he : fl.e = false) (hf : fl.f = "") (hh : fl.host ≠ "") :
    (∃ p : CaddyLog → Bool,
        (∀ l, p l = true ↔
          (isSubstring (stringsToLower lower fl.host.toList)
              (stringsToLower lower l.RemoteIP.toList) ∨
            isSubstring (stringsToLower lower fl.host.toList)
              (stringsToLower lower l.Host.toList))) ∧
        snapshot lower fl cachedLogs = cachedLogs.filter p) ∧
      ((∀ c : Char, c.toNat < 128 → lower c = c.toLower) → fl.host = "10.0.0" →
        ∀ l ∈ cachedLogs, (l.RemoteIP = "10.0.0.5" ∨ l.Host = "api-10.0.0.dev") →
          l ∈ snapshot lower fl cachedLogs) := by
  have hp : ∀ l, passesFilters lower fl l = true ↔
      (isSubstring (stringsToLower lower fl.host.toList)
          (stringsToLower lower l.RemoteIP.toList) ∨
        isSubstring (stringsToLower lower fl.host.toList)
          (stringsToLower lower l.Host.toList)) := by
    intro l
    rw [← stringsContains_iff, ← stringsContains_iff]
    simp only [passesFilters, hostSkips, findSkips, hall, he, hf, hh, ne_eq, not_false_eq_true,
      decide_True, not_true_eq_false, decide_False, Bool.true_and, Bool.false_and, Bool.not_true,
      Bool.not_false, Bool.and_true, Bool.not_and, Bool.not_not, Bool.or_eq_true]
  refine ⟨⟨passesFilters lower fl, hp, snapshot_all lower fl hall cachedLogs⟩, ?_⟩
  intro hlow hhost l hl hm
  rw [snapshot_all lower fl hall, List.mem_filter]
  refine ⟨hl, (hp l).mpr ?_⟩
  have e1 : stringsToLower lower fl.host.toList = "10.0.0".toList := by
    rw [hhost]
    exact map_lower_ascii lower hlow _ (by decide)
  rw [e1]
  rcases hm with h | h
  · left
    rw [h]
    have e2 : stringsToLower lower "10.0.0.5".toList = "10.0.0.5".toList :=
      map_lower_ascii lower hlow _ (by decide)
    rw [e2]
    exact ⟨[], ".5".toList, by decide⟩
  · right
    rw [h]
    have e2 : stringsToLower lower "api-10.0.0.dev".toList = "api-10.0.0.dev".toList :=
      map_lower_ascii lower hlow _ (by decide)
    rw [e2]
    exact ⟨"api-".toList, ".dev".toList, by decide⟩

/-- C11 (instance): a three-entry window filtered by `10.0.0`. -/
theorem snapshot_host_filter_witness :
    (⟨0, false, false, true, "", "10.0.0"⟩ : Flags).all = true ∧
      (⟨0, false, false, true, "", "10.0.0"⟩ : Flags).e = false ∧
      (⟨0, false, false, true, "", "10.0.0"⟩ : Flags).f = "" ∧
      (⟨0, false, false, true, "", "10.0.0"⟩ : Flags).host ≠ "" ∧
      ∃ p : CaddyLog → Bool,
        (∀ l, p l = true ↔
          (isSubstring (stringsToLower Char.toLower "10.0.0".toList)
              (stringsToLower Char.toLower l.RemoteIP.toList) ∨
            isSubstring (stringsToLower Char.toLower "10.0.0".toList)
              (stringsToLower Char.toLower l.Host.toList))) ∧
        snapshot Char.toLower ⟨0, false, false, true, "", "10.0.0"⟩ window5 =
          window5.filter p :=
  ⟨rfl, rfl, rfl, by decide,
    (snapshot_host_filter Char.toLower ⟨0, false, false, true, "", "10.0.0"⟩ window5 rfl rfl rfl
      (by decide)).1⟩

/-- C13: in show-all-history mode the entries printed by the snapshot loop are all
the entries of the window that pass the host/IP, errors-only and free-text filters,
in window order, whatever the hide-assets flag and the display count are. -/
theorem snapshot_all_history (lower : Char → Char) (fl : Flags) (cachedLogs : List CaddyLog)
    (hall : fl.all = true) :
    snapshot lower fl cachedLogs =
        cachedLogs.filter (fun l =>
          !hostSkips lower fl l && !(fl.e && decide (l.Status < 400)) && !findSkips lower fl l) ∧
      ∀ (ha : Bool) (lCount : Int),
        snapshot lower ⟨lCount, ha, fl.e, fl.all, fl.f, fl.host⟩ cachedLogs =
          snapshot lower fl cachedLogs := by
  have h1 : ∀ fl2 : Flags, fl2.all = true →
      snapshot lower fl2 cachedLogs =
        cachedLogs.filter (fun l =>
          !hostSkips lower fl2 l && !(fl2.e && decide (l.Status < 400)) &&
            !findSkips lower fl2 l) := by
    intro fl2 h2
    rw [snapshot_all lower fl2 h2]
    congr 1
    funext l
    simp [passesFilters, h2]
  refine ⟨h1 fl hall, ?_⟩
  intro ha lCount
  rw [h1 fl hall, h1 ⟨lCount, ha, fl.e, fl.all, fl.f, fl.host⟩ hall]
  rfl

/-- C13 (instance): the window of five entries, hide-assets on and a count of 1,
in show-all-history mode. -/
theorem snapshot_all_history_witness :
    (⟨1, true, false, true, "", ""⟩ : Flags).all = true ∧
      snapshot Char.toLower ⟨1, true, false, true, "", ""⟩ window5 =
        window5.filter (fun l =>
          !hostSkips Char.toLower ⟨1, true, false, true, "", ""⟩ l &&
            !((⟨1, true, false, true, "", ""⟩ : Flags).e && decide (l.Status < 400)) &&
            !findSkips Char.toLower ⟨1, true, false, true, "", ""⟩ l) :=
  ⟨rfl, (snapshot_all_history Char.toLower ⟨1, true, false, true, "", ""⟩ window5 rfl).1⟩

/-- C14: on the empty list `calculateStats` returns the zero value of `LogStats`:
a rate of 0, five percentages of 0, an empty address with a share of 0 and a
latency of 0; the function is total, so nothing fails. -/
theorem calculateStats_nil (iter : List (String × Nat) → List (String × Nat)) :
    calculateStats iter [] = LogStats.zero ∧
      (calculateStats iter []).RPS = 0 ∧
      (calculateStats iter []).Status1xx = 0 ∧ (calculateStats iter []).Status2xx = 0 ∧
      (calculateStats iter []).Status3xx = 0 ∧ (calculateStats iter []).Status4xx = 0 ∧
      (calculateStats iter []).Status5xx = 0 ∧ (calculateStats iter []).TopIP = "" ∧
      (calculateStats iter []).TopIPPct = 0 ∧ (calculateStats iter []).AvgLatency = 0 :=
  ⟨rfl, rfl, rfl, rfl, rfl, rfl, rfl, rfl, rfl, rfl⟩

theorem decodeLines_append (eqFold : String → String → Bool) (a b : List (List Nat)) :
    decodeLines eqFold (a ++ b) = decodeLines eqFold a ++ decodeLines eqFold b := by
  induction a with
  | nil => simp [decodeLines]
  | cons line rest ih =>
    simp only [List.cons_append, decodeLines]
    split_ifs
    · exact ih
    · cases decodeLine eqFold line <;> simp [ih]

theorem decodeLines_eq_filterMap (eqFold : String → String → Bool) (rawLines : List (List Nat)) :
    decodeLines eqFold rawLines =
      rawLines.filterMap (fun line => if line = [] then none else decodeLine eqFold line) := by
  induction rawLines with
  | nil => rfl
  | cons line rest ih =>
    rw [decodeLines, List.filterMap_cons]
    by_cases h : line = []
    · simp only [h, if_true, ih]
    · simp only [h, if_false]
      cases decodeLine eqFold line <;> simp [ih]

theorem jsonParse_bad_start (line : List Nat)
    (h : ∀ b rest, skipSpace line = b :: rest → startsValue b = false) :
    jsonParse line = none := by
  unfold jsonParse
  rw [parseValue]
  cases hs : skipSpace line with
  | nil => rfl
  | cons b rest =>
    have hb := h b rest hs
    simp only [startsValue, Bool.or_eq_false_iff, decide_eq_false_iff_not] at hb
    obtain ⟨⟨⟨⟨⟨⟨⟨h1, h2⟩, h3⟩, h4⟩, h5⟩, h6⟩, h7⟩, h8⟩ := hb
    have p6 : ([116, 114, 117, 101] : List Nat).isPrefixOf (b :: rest) = false := by
      simp [List.isPrefixOf, Ne.symm h6]
    have p7 : ([102, 97, 108, 115, 101] : List Nat).isPrefixOf (b :: rest) = false := by
      simp [List.isPrefixOf, Ne.symm h7]
    have p8 : ([110, 117, 108, 108] : List Nat).isPrefixOf (b :: rest) = false := by
      simp [List.isPrefixOf, Ne.symm h8]
    simp [h1, h2, h3, h4, h5, p6, p7, p8]

theorem decodeMembers_preserve {α : Type} (step : CaddyLog → String → Json → Option CaddyLog)
    (proj : CaddyLog → α) (good : String → Prop)
    (hstep : ∀ l k v l2, step l k v = some l2 → good k → proj l2 = proj l) :
    ∀ (ms : List (String × Json)) (l l2 : CaddyLog),
      decodeMembers step ms l = some l2 → (∀ kv ∈ ms, good kv.1) → proj l2 = proj l := by
  intro ms
  induction ms with
  | nil =>
    intro l l2 h _
    simp only [decodeMembers, Option.some.injEq] at h
    rw [h]
  | cons kv ms ih =>
    intro l l2 h hg
    obtain ⟨k, v⟩ := kv
    rw [decodeMembers] at h
    cases hs : step l k v with
    | none => rw [hs] at h; exact absurd h (by simp)
    | some l1 =>
      rw [hs] at h
      have h1 := hstep l k v l1 hs (hg (k, v) (by simp))
      have h2 := ih l1 l2 h (fun kv hkv => hg kv (by simp [hkv]))
      rw [h2, h1]

theorem decodeMembers_ne_none (step : CaddyLog → String → Json → Option CaddyLog)
    (hind : ∀ l l0 k v, step l k v ≠ none → step l0 k v ≠ none) (l0 : CaddyLog) :
    ∀ (ms : List (String × Json)) (l : CaddyLog),
      decodeMembers step ms l ≠ none ↔ ∀ kv ∈ ms, step l0 kv.1 kv.2 ≠ none := by
  intro ms
  induction ms with
  | nil => intro l; simp [decodeMembers]
  | cons kv ms ih =>
    intro l
    obtain ⟨k, v⟩ := kv
    rw [decodeMembers]
    cases hs : step l k v with
    | none =>
      simp only [ne_eq, not_true_eq_false, List.mem_cons, forall_eq_or_imp, false_iff, not_and]
      intro h0
      exact absurd hs (hind l0 l k v h0)
    | some l1 =>
      simp only [List.mem_cons, forall_eq_or_imp]
      rw [ih l1]
      constructor
      · intro h
        exact ⟨hind l l0 k v (by rw [hs]; simp), h⟩
      · intro h
        exact h.2

theorem decodeString_indep (v : Json) (a b : String) (h : decodeString v a ≠ none) :
    decodeString v b ≠ none := by
  cases v <;> simp_all [decodeString]

theorem decodeFloat_indep (v : Json) (a b : ℚ) (h : decodeFloat v a ≠ none) :
    decodeFloat v b ≠ none := by
  cases v <;> simp_all [decodeFloat]

theorem decodeInt_indep (v : Json) (a b : Int) (h : decodeInt v a ≠ none) :
    decodeInt v b ≠ none := by
  cases v <;> simp_all [decodeInt]

theorem setRequestField_indep (eqFold : String → String → Bool) (l l0 : CaddyLog) (k : String)
    (v : Json) (h : setRequestField eqFold l k v ≠ none) :
    setRequestField eqFold l0 k v ≠ none := by
  unfold setRequestField at h ⊢
  simp only at h ⊢
  split_ifs at h ⊢
  · simp only [ne_eq, Option.map_eq_none'] at h ⊢
    exact decodeString_indep v _ _ h
  · simp only [ne_eq, Option.map_eq_none'] at h ⊢
    exact decodeString_indep v _ _ h
  · simp only [ne_eq, Option.map_eq_none'] at h ⊢
    exact decodeString_indep v _ _ h
  · simp only [ne_eq, Option.map_eq_none'] at h ⊢
    exact decodeString_indep v _ _ h
  · simp

theorem decodeRequest_indep (eqFold : String → String → Bool) (l l0 : CaddyLog) (v : Json)
    (h : decodeRequest eqFold v l ≠ none) : decodeRequest eqFold v l0 ≠ none := by
  cases v with
  | obj ms =>
    simp only [decodeRequest] at h ⊢
    rw [decodeMembers_ne_none _ (setRequestField_indep eqFold) l0] at h ⊢
    exact h
  | null => simp [decodeRequest]
  | bool b => simp [decodeRequest] at h
  | num n => simp [decodeRequest] at h
  | str s => simp [decodeRequest] at h
  | arr items => simp [decodeRequest] at h

theorem setField_indep (eqFold : String → String → Bool) (l l0 : CaddyLog) (k : String)
    (v : Json) (h : setField eqFold l k v ≠ none) : setField eqFold l0 k v ≠ none := by
  unfold setField at h ⊢
  simp only at h ⊢
  split_ifs at h ⊢
  · simp only [ne_eq, Option.map_eq_none'] at h ⊢
    exact decodeFloat_indep v _ _ h
  · simp only [ne_eq, Option.map_eq_none'] at h ⊢
    exact decodeInt_indep v _ _ h
  · simp only [ne_eq, Option.map_eq_none'] at h ⊢
    exact decodeFloat_indep v _ _ h
  · exact decodeRequest_indep eqFold l l0 v h
  · simp

theorem setRequestField_fields (eqFold : String → String → Bool) (l l2 : CaddyLog) (k : String)
    (v : Json) (h : setRequestField eqFold l k v = some l2) :
    l2.Timestamp = l.Timestamp ∧ l2.Status = l.Status ∧ l2.Duration = l.Duration ∧
      (fieldFor eqFold requestFields k ≠ some "remote_ip" → l2.RemoteIP = l.RemoteIP) ∧
      (fieldFor eqFold requestFields k ≠ some "method" → l2.Method = l.Method) ∧
      (fieldFor eqFold requestFields k ≠ some "host" → l2.Host = l.Host) ∧
      (fieldFor eqFold requestFields k ≠ some "uri" → l2.URI = l.URI) := by
  unfold setRequestField at h
  simp only at h
  split_ifs at h with h1 h2 h3 h4
  · obtain ⟨s, _, e⟩ := Option.map_eq_some'.mp h
    subst e
    simp [h1]
  · obtain ⟨s, _, e⟩ := Option.map_eq_some'.mp h
    subst e
    simp [h2]
  · obtain ⟨s, _, e⟩ := Option.map_eq_some'.mp h
    subst e
    simp [h3]
  · obtain ⟨s, _, e⟩ := Option.map_eq_some'.mp h
    subst e
    simp [h4]
  · simp only [Option.some.injEq] at h
    subst h
    simp

theorem decodeRequest_fields (eqFold : String → String → Bool) (v : Json) (l l2 : CaddyLog)
    (h : decodeRequest eqFold v l = some l2) :
    l2.Timestamp = l.Timestamp ∧ l2.Status = l.Status ∧ l2.Duration = l.Duration := by
  cases v with
  | obj ms =>
    simp only [decodeRequest] at h
    refine ⟨?_, ?_, ?_⟩
    · exact decodeMembers_preserve _ (fun x => x.Timestamp) (fun _ => True)
        (fun a k w b hs _ => (setRequestField_fields eqFold a b k w hs).1) ms l l2 h
        (fun _ _ => trivial)
    · exact decodeMembers_preserve _ (fun x => x.Status) (fun _ => True)
        (fun a k w b hs _ => (setRequestField_fields eqFold a b k w hs).2.1) ms l l2 h
        (fun _ _ => trivial)
    · exact decodeMembers_preserve _ (fun x => x.Duration) (fun _ => True)
        (fun a k w b hs _ => (setRequestField_fields eqFold a b k w hs).2.2.1) ms l l2 h
        (fun _ _ => trivial)
  | null =>
    simp only [decodeRequest, Option.some.injEq] at h
    subst h
    exact ⟨rfl, rfl, rfl⟩
  | bool b => simp [decodeRequest] at h
  | num n => simp [decodeRequest] at h
  | str s => simp [decodeRequest] at h
  | arr items => simp [decodeRequest] at h

theorem setField_fields (eqFold : String → String → Bool) (l l2 : CaddyLog) (k : String)
    (v : Json) (h : setField eqFold l k v = some l2) :
    (fieldFor eqFold caddyLogFields k ≠ some "ts" → l2.Timestamp = l.Timestamp) ∧
      (fieldFor eqFold caddyLogFields k ≠ some "status" → l2.Status = l.Status) ∧
      (fieldFor eqFold caddyLogFields k ≠ some "duration" → l2.Duration = l.Duration) ∧
      (fieldFor eqFold caddyLogFields k ≠ some "request" →
        l2.RemoteIP = l.RemoteIP ∧ l2.Method = l.Method ∧ l2.Host = l.Host ∧ l2.URI = l.URI) := by
  unfold setField at h
  simp only at h
  split_ifs at h with h1 h2 h3 h4
  · obtain ⟨s, _, e⟩ := Option.map_eq_some'.mp h
    subst e
    simp [h1]
  · obtain ⟨s, _, e⟩ := Option.map_eq_some'.mp h
    subst e
    simp [h2]
  · obtain ⟨s, _, e⟩ := Option.map_eq_some'.mp h
    subst e
    simp [h3]
  · obtain ⟨e1, e2, e3⟩ := decodeRequest_fields eqFold v l l2 h
    simp [h4, e1, e2, e3]
  · simp only [Option.some.injEq] at h
    subst h
    simp

/-- A JSON value that is neither an object nor `null` is a type error for the
struct, and so is a member of the wrong kind for its field. -/
theorem jsonUnmarshal_type_errors (eqFold : String → String → Bool) :
    (∀ b, jsonUnmarshal eqFold (Json.bool b) = none) ∧
      (∀ x, jsonUnmarshal eqFold (Json.num x) = none) ∧
      (∀ s, jsonUnmarshal eqFold (Json.str s) = none) ∧
      (∀ items, jsonUnmarshal eqFold (Json.arr items) = none) ∧
      (∀ s cur, decodeInt (Json.str s) cur = none) ∧
      (∀ s cur, decodeFloat (Json.str s) cur = none) ∧
      (∀ x cur, decodeString (Json.num x) cur = none) :=
  ⟨fun _ => rfl, fun _ => rfl, fun _ => rfl, fun _ => rfl, fun _ _ => rfl, fun _ _ => rfl,
    fun _ _ => rfl⟩

theorem not_hasMemberFor (eqFold : String → String → Bool) (names : List String)
    (ms : List (String × Json)) (field : String) (h : ¬ hasMemberFor eqFold names ms field) :
    ∀ kv ∈ ms, fieldFor eqFold names kv.1 ≠ some field :=
  fun kv hkv e => h ⟨kv, hkv, e⟩

/-- C12 (amended): the window built from a batch of raw lines consists of the
entries of the lines that decode, in order, so every line gives an entry or
nothing and no line fails the batch.  A line that is not valid JSON gives nothing
and adds no entry; a line whose first byte after blanks cannot begin a JSON value
is not valid JSON.  A JSON object is not rejected for lacking a field: it decodes
exactly when each of its members decodes on its own (likewise the object under
`request`), a field without a member keeps its zero value, and the empty object
decodes to the all-zero entry. -/
theorem decodeLines_window (eqFold : String → String → Bool) :
    (∀ rawLines : List (List Nat),
        decodeLines eqFold rawLines =
          rawLines.filterMap (fun line => if line = [] then none else decodeLine eqFold line)) ∧
      (∀ line : List Nat, jsonParse line = none →
        decodeLine eqFold line = none ∧
          ∀ before after : List (List Nat),
            decodeLines eqFold (before ++ line :: after) =
              decodeLines eqFold before ++ decodeLines eqFold after) ∧
      (∀ line : List Nat,
        (∀ b rest, skipSpace line = b :: rest → startsValue b = false) →
          jsonParse line = none) ∧
      (∀ ms : List (String × Json),
        jsonUnmarshal eqFold (Json.obj ms) ≠ none ↔
          ∀ kv ∈ ms, jsonUnmarshal eqFold (Json.obj [kv]) ≠ none) ∧
      (∀ (rs : List (String × Json)) (l0 : CaddyLog),
        decodeRequest eqFold (Json.obj rs) l0 ≠ none ↔
          ∀ kv ∈ rs, decodeRequest eqFold (Json.obj [kv]) l0 ≠ none) ∧
      (∀ (ms : List (String × Json)) (l : CaddyLog),
        jsonUnmarshal eqFold (Json.obj ms) = some l →
          (¬ hasMemberFor eqFold caddyLogFields ms "ts" → l.Timestamp = 0) ∧
          (¬ hasMemberFor eqFold caddyLogFields ms "status" → l.Status = 0) ∧
          (¬ hasMemberFor eqFold caddyLogFields ms "duration" → l.Duration = 0) ∧
          (¬ hasMemberFor eqFold caddyLogFields ms "request" →
            l.RemoteIP = "" ∧ l.Method = "" ∧ l.Host = "" ∧ l.URI = "")) ∧
      (∀ (rs : List (String × Json)) (l0 l : CaddyLog),
        decodeRequest eqFold (Json.obj rs) l0 = some l →
          (¬ hasMemberFor eqFold requestFields rs "remote_ip" → l.RemoteIP = l0.RemoteIP) ∧
          (¬ hasMemberFor eqFold requestFields rs "method" → l.Method = l0.Method) ∧
          (¬ hasMemberFor eqFold requestFields rs "host" → l.Host = l0.Host) ∧
          (¬ hasMemberFor eqFold requestFields rs "uri" → l.URI = l0.URI)) ∧
      jsonUnmarshal eqFold (Json.obj []) = some ⟨0, 0, 0, "", "", "", ""⟩ := by
  have single : ∀ (step : CaddyLog → String → Json → Option CaddyLog) (kv : String × Json)
      (l0 : CaddyLog), decodeMembers step [kv] l0 ≠ none ↔ step l0 kv.1 kv.2 ≠ none := by
    intro step kv l0
    obtain ⟨k, v⟩ := kv
    rw [decodeMembers]
    cases step l0 k v <;> simp [decodeMembers]
  refine ⟨decodeLines_eq_filterMap eqFold, ?_, jsonParse_bad_start, ?_, ?_, ?_, ?_, rfl⟩
  · intro line h
    have h1 : decodeLine eqFold line = none := by
      unfold decodeLine
      rw [h]
    refine ⟨h1, ?_⟩
    intro before after
    rw [decodeLines_append]
    congr 1
    rw [decodeLines]
    split_ifs
    · rfl
    · rw [h1]
  · intro ms
    simp only [jsonUnmarshal]
    rw [decodeMembers_ne_none _ (setField_indep eqFold) ⟨0, 0, 0, "", "", "", ""⟩]
    exact forall₂_congr (fun kv _ => (single _ kv _).symm)
  · intro rs l0
    simp only [decodeRequest]
    rw [decodeMembers_ne_none _ (setRequestField_indep eqFold) l0]
    exact forall₂_congr (fun kv _ => (single _ kv _).symm)
  · intro ms l h
    simp only [jsonUnmarshal] at h
    refine ⟨?_, ?_, ?_, ?_⟩
    · intro hno
      exact decodeMembers_preserve _ (fun x => x.Timestamp)
        (fun k => fieldFor eqFold caddyLogFields k ≠ some "ts")
        (fun a k w b hs hg => (setField_fields eqFold a b k w hs).1 hg) ms _ l h
        (not_hasMemberFor eqFold _ ms _ hno)
    · intro hno
      exact decodeMembers_preserve _ (fun x => x.Status)
        (fun k => fieldFor eqFold caddyLogFields k ≠ some "status")
        (fun a k w b hs hg => (setField_fields eqFold a b k w hs).2.1 hg) ms _ l h
        (not_hasMemberFor eqFold _ ms _ hno)
    · intro hno
      exact decodeMembers_preserve _ (fun x => x.Duration)
        (fun k => fieldFor eqFold caddyLogFields k ≠ some "duration")
        (fun a k w b hs hg => (setField_fields eqFold a b k w hs).2.2.1 hg) ms _ l h
        (not_hasMemberFor eqFold _ ms _ hno)
    · intro hno
      have hp := decodeMembers_preserve _ (fun x => (x.RemoteIP, x.Method, x.Host, x.URI))
        (fun k => fieldFor eqFold caddyLogFields k ≠ some "request")
        (fun a k w b hs hg => by
          obtain ⟨e1, e2, e3, e4⟩ := (setField_fields eqFold a b k w hs).2.2.2 hg
          simp [e1, e2, e3, e4]) ms _ l h
        (not_hasMemberFor eqFold _ ms _ hno)
      simpa using hp
  · intro rs l0 l h
    simp only [decodeRequest] at h
    refine ⟨?_, ?_, ?_, ?_⟩
    · intro hno
      exact decodeMembers_preserve _ (fun x => x.RemoteIP)
        (fun k => fieldFor eqFold requestFields k ≠ some "remote_ip")
        (fun a k w b hs hg => (setRequestField_fields eqFold a b k w hs).2.2.2.1 hg) rs _ l h
        (not_hasMemberFor eqFold _ rs _ hno)
    · intro hno
      exact decodeMembers_preserve _ (fun x => x.Method)
        (fun k => fieldFor eqFold requestFields k ≠ some "method")
        (fun a k w b hs hg => (setRequestField_fields eqFold a b k w hs).2.2.2.2.1 hg) rs _ l h
        (not_hasMemberFor eqFold _ rs _ hno)
    · intro hno
      exact decodeMembers_preserve _ (fun x => x.Host)
        (fun k => fieldFor eqFold requestFields k ≠ some "host")
        (fun a k w b hs hg => (setRequestField_fields eqFold a b k w hs).2.2.2.2.2.1 hg) rs _ l h
        (not_hasMemberFor eqFold _ rs _ hno)
    · intro hno
      exact decodeMembers_preserve _ (fun x => x.URI)
        (fun k => fieldFor eqFold requestFields k ≠ some "uri")
        (fun a k w b hs hg => (setRequestField_fields eqFold a b k w hs).2.2.2.2.2.2 hg) rs _ l h
        (not_hasMemberFor eqFold _ rs _ hno)

/-- C12 (instance): the line `{"ts":`, cut off by a write in progress, is not
valid JSON and gives no entry; neither does the line `garbage`. -/
theorem decodeLines_window_witness :
    jsonParse [123, 34, 116, 115, 34, 58] = none ∧
      decodeLine asciiFold [123, 34, 116, 115, 34, 58] = none ∧
      decodeLines asciiFold [[123, 125], [123, 34, 116, 115, 34, 58], [123, 125]] =
        decodeLines asciiFold [[123, 125]] ++ decodeLines asciiFold [[123, 125]] ∧
      jsonParse [103, 97, 114, 98, 97, 103, 101] = none :=
  have h : jsonParse [123, 34, 116, 115, 34, 58] = none :=
    Option.not_isSome_iff_eq_none.mp (by decide!)
  ⟨h, ((decodeLines_window asciiFold).2.1 _ h).1,
    ((decodeLines_window asciiFold).2.1 _ h).2 [[123, 125]] [[123, 125]],
    (decodeLines_window asciiFold).2.2.1 [103, 97, 114, 98, 97, 103, 101]
      (by
        intro b rest hs
        have : b = 103 := by
          have h2 : skipSpace [103, 97, 114, 98, 97, 103, 101] =
              [103, 97, 114, 98, 97, 103, 101] := by decide
          rw [h2] at hs
          exact (List.cons.inj hs).1.symm
        rw [this]
        decide)⟩

/-- C12 (counterexample): the line `{"status":200}`, a JSON object that lacks
`ts`, `duration` and `request`, is decoded to an entry with status 200 and zero in
the other fields, and the line `{}` to the all-zero entry; both are added to the
window. -/
theorem decodeLine_missing_fields :
    decodeLine asciiFold [123, 34, 115, 116, 97, 116, 117, 115, 34, 58, 50, 48, 48, 125] =
        some ⟨0, 200, 0, "", "", "", ""⟩ ∧
      decodeLine asciiFold [123, 125] = some ⟨0, 0, 0, "", "", "", ""⟩ ∧
      decodeLines asciiFold
          [[123, 34, 115, 116, 97, 116, 117, 115, 34, 58, 50, 48, 48, 125], [123, 125]] =
        [⟨0, 200, 0, "", "", "", ""⟩, ⟨0, 0, 0, "", "", "", ""⟩] := by
  decide!

theorem utf8Bytes_append (a b : List Char) : utf8Bytes (a ++ b) = utf8Bytes a ++ utf8Bytes b := by
  simp [utf8Bytes, List.flatMap_append]

theorem formatEntry_length (fmtTime : Int → String) (isTerminal : Bool) (l : CaddyLog) :
    17 ≤ (utf8Bytes (formatEntry fmtTime isTerminal l)).length := by
  have h3 : (utf8Bytes " | ".toList).length = 3 := by decide
  have h5 : (utf8Bytes "ms | ".toList).length = 5 := by decide
  simp only [formatEntry, utf8Bytes_append, List.length_append, h3, h5]
  omega

/-- In dashboard mode a width below 3 makes the slice expression of every entry
fail. -/
theorem renderLine_narrow (fmtTime : Int → String) (isTerminal : Bool) (width : Int)
    (l : CaddyLog) (hw : width < 3) : renderLine fmtTime isTerminal true width l = none := by
  have hlen := formatEntry_length fmtTime isTerminal l
  unfold renderLine
  simp only [Bool.true_and]
  rw [if_pos (by simp; omega), if_neg (by omega)]

/-- In dashboard mode a width of at least 3 gives a line of at most `width`
bytes. -/
theorem renderLine_wide (fmtTime : Int → String) (isTerminal : Bool) (width : Int)
    (l : CaddyLog) (hw : 3 ≤ width) :
    ∃ line : List Nat,
      renderLine fmtTime isTerminal true width l = some line ∧ (line.length : Int) ≤ width := by
  unfold renderLine
  simp only [Bool.true_and]
  by_cases h : ((utf8Bytes (formatEntry fmtTime isTerminal l)).length : Int) > width
  · rw [if_pos (by simpa using h), if_pos (by omega)]
    refine ⟨_, rfl, ?_⟩
    have h3 : (utf8Bytes "...".toList).length = 3 := by decide
    rw [List.length_append, h3, List.length_take]
    omega
  · rw [if_neg (by simpa using h)]
    exact ⟨_, rfl, by omega⟩

/-- C15 (evaluation at the failing input): in dashboard mode with a terminal width
of 0, 1 or 2 the rendering of an entry ends in a slice that is out of range. -/
theorem renderLine_width_below_3 :
    renderLine fixedTime false true 0 (mkEntry 0 200 "10.0.0.1" "/index.html") = none ∧
      renderLine fixedTime false true 1 (mkEntry 0 200 "10.0.0.1" "/index.html") = none ∧
      renderLine fixedTime false true 2 (mkEntry 0 200 "10.0.0.1" "/index.html") = none :=
  ⟨renderLine_narrow _ _ _ _ (by decide), renderLine_narrow _ _ _ _ (by decide),
    renderLine_narrow _ _ _ _ (by decide)⟩

/-- C16 (evaluation at the failing input): with hide-assets and show-all-history
both on, the entry for `/logo.png` passes the per-entry filters of the snapshot
loop and is printed by it, while the live-follow filter rejects it. -/
theorem liveAccepts_differs_with_all :
    passesFilters Char.toLower ⟨10, true, false, true, "", ""⟩
        (mkEntry 0 200 "10.0.0.1" "/logo.png") = true ∧
      snapshot Char.toLower ⟨10, true, false, true, "", ""⟩
          [mkEntry 0 200 "10.0.0.1" "/logo.png"] = [mkEntry 0 200 "10.0.0.1" "/logo.png"] ∧
      liveAccepts Char.toLower ⟨10, true, false, true, "", ""⟩
        (mkEntry 0 200 "10.0.0.1" "/logo.png") = false := by
  decide!

/-- When show-all-history is off, or hide-assets is off, the live-follow filter
accepts an entry exactly when the per-entry filters of the snapshot loop do. -/
theorem liveAccepts_eq_passesFilters (lower : Char → Char) (fl : Flags) (l : CaddyLog)
    (h : fl.all = false ∨ fl.ha = false) :
    liveAccepts lower fl l = passesFilters lower fl l := by
  unfold liveAccepts passesFilters
  rcases h with h | h <;> rw [h] <;>
    cases hostSkips lower fl l <;> cases fl.e <;> cases findSkips lower fl l <;>
    cases decide (l.Status < 400) <;> cases isAsset lower l.URI <;> cases fl.ha <;>
    cases fl.all <;> simp

theorem countTotalLines_cursorInv (content : List Nat) :
    ∃ log : ReadLog,
      countTotalLines (some content) = some ((content.count 10, content.length), log) ∧
        cursorInv ⟨content.count 10, content.length⟩ content := by
  obtain ⟨log2, h1⟩ := countLoop_spec content (content.length + 2) 0 0 [] (by omega) (by omega)
  refine ⟨log2, ?_, ?_⟩
  · rw [countTotalLines]
    simp [h1, bytesCount]
  · simp [cursorInv]

theorem updateLineCount_cursorInv (t : Tracker) (old new : List Nat) (hinv : cursorInv t old)
    (hch : followedChange old new) :
    ∃ (b : Bool) (t2 : Tracker) (log : ReadLog),
      updateLineCount (some new) t = some (b, t2, log) ∧ cursorInv t2 new := by
  obtain ⟨htot, hsize⟩ := hinv
  rw [hsize, List.take_length] at htot
  rcases hch with ⟨added, hnew⟩ | hlt
  · subst hnew
    by_cases ha : added = []
    · subst ha
      refine ⟨false, t, [], ?_, ?_⟩
      · rw [updateLineCount, if_pos (by simp [hsize])]
      · simp [cursorInv, hsize, htot]
    · have hpos : 0 < added.length := List.length_pos.mpr ha
      obtain ⟨log2, h1, _, _⟩ := appendLoop_spec (old ++ added)
        ((old ++ added).length - t.lastSize + 1) t.lastSize ((old ++ added).length - t.lastSize)
        t.totalLines [] (by simp; omega) (by omega)
      refine ⟨true, ⟨t.totalLines + bytesCount ((old ++ added).drop t.lastSize),
        (old ++ added).length⟩, [] ++ log2, ?_, ?_⟩
      · rw [updateLineCount, if_neg (by simp; omega), if_pos (by simp; omega), h1]
        rfl
      · have hd : (old ++ added).drop t.lastSize = added := by rw [hsize]; simp
        refine ⟨?_, rfl⟩
        show t.totalLines + bytesCount ((old ++ added).drop t.lastSize) =
          ((old ++ added).take (old ++ added).length).count 10
        rw [List.take_length, hd, List.count_append, htot]
        rfl
  · obtain ⟨log2, h1, h2⟩ := countTotalLines_cursorInv new
    refine ⟨true, ⟨new.count 10, new.length⟩, log2, ?_, h2⟩
    rw [updateLineCount, if_neg (by omega), if_neg (by omega), h1]
    rfl

theorem chain_left {α : Type} (R : α → α → Prop) (l1 l2 : List α) :
    ∀ a : α, List.Chain R a (l1 ++ l2) → List.Chain R a l1 := by
  induction l1 with
  | nil => intro a _; exact List.Chain.nil
  | cons x xs ih =>
    intro a h
    obtain ⟨h1, h2⟩ := List.chain_cons.mp h
    exact List.chain_cons.mpr ⟨h1, ih x h2⟩

theorem pollAll_append (t : Tracker) (a b : List (List Nat)) :
    pollAll t (a ++ b) = (pollAll t a).bind (fun t2 => pollAll t2 b) := by
  induction a generalizing t with
  | nil => simp [pollAll]
  | cons c rest ih =>
    simp only [List.cons_append, pollAll]
    cases updateLineCount (some c) t with
    | none => rfl
    | some r => exact ih r.2.1

theorem pollAll_cursorInv (cs : List (List Nat)) :
    ∀ (t : Tracker) (c0 : List Nat), cursorInv t c0 → List.Chain followedChange c0 cs →
      ∃ t2 : Tracker, pollAll t cs = some t2 ∧ cursorInv t2 ((c0 :: cs).getLast (by simp)) := by
  induction cs with
  | nil => intro t c0 hinv _; exact ⟨t, rfl, by simpa using hinv⟩
  | cons c rest ih =>
    intro t c0 hinv hchain
    obtain ⟨hstep, hrest⟩ := List.chain_cons.mp hchain
    obtain ⟨b, t2, log, hu, hinv2⟩ := updateLineCount_cursorInv t c0 c hinv hstep
    obtain ⟨t3, hp, hinv3⟩ := ih t2 c hinv2 hrest
    refine ⟨t3, ?_, ?_⟩
    · rw [pollAll, hu]
      exact hp
    · simpa [List.getLast_cons] using hinv3

/-- C17 (amended): the cursor invariant holds after the initial full scan, and
after every call of `updateLineCount` in a sequence of polls in which each content
either continues the content of the poll before (or equals it) or is shorter than
it. -/
theorem cursorInv_followed (c0 : List Nat) (cs : List (List Nat))
    (h : List.Chain followedChange c0 cs) :
    ∃ (t0 : Tracker) (log : ReadLog),
      countTotalLines (some c0) = some ((t0.totalLines, t0.lastSize), log) ∧
        cursorInv t0 c0 ∧
        ∀ seen later : List (List Nat), cs = seen ++ later →
          ∃ t : Tracker,
            pollAll t0 seen = some t ∧ cursorInv t ((c0 :: seen).getLast (by simp)) := by
  obtain ⟨log, h1, h2⟩ := countTotalLines_cursorInv c0
  refine ⟨⟨c0.count 10, c0.length⟩, log, h1, h2, ?_⟩
  intro seen later hcs
  subst hcs
  have hseen : List.Chain followedChange c0 seen := chain_left followedChange seen later c0 h
  exact pollAll_cursorInv seen _ c0 h2 hseen

/-- C17 (instance): the file `a\n`, then `a\nb\n`, then cut down to `c`. -/
theorem cursorInv_followed_witness :
    List.Chain followedChange [97, 10] [[97, 10, 98, 10], [99]] ∧
      ∃ (t0 : Tracker) (log : ReadLog),
        countTotalLines (some [97, 10]) = some ((t0.totalLines, t0.lastSize), log) ∧
          cursorInv t0 [97, 10] ∧
          ∀ seen later : List (List Nat), [[97, 10, 98, 10], [99]] = seen ++ later →
            ∃ t : Tracker,
              pollAll t0 seen = some t ∧
                cursorInv t (((97 :: [10]) :: seen).getLast (by simp)) :=
  have h : List.Chain followedChange [97, 10] [[97, 10, 98, 10], [99]] :=
    List.chain_cons.mpr ⟨Or.inl ⟨[98, 10], rfl⟩,
      List.chain_cons.mpr ⟨Or.inr (by decide), List.Chain.nil⟩⟩
  ⟨h, cursorInv_followed [97, 10] [[97, 10, 98, 10], [99]] h⟩

/-- C17 (counterexample): after the scan of `a\nb\n` (2 lines, 4 bytes) the file
is replaced by `abcd`, of the same size: `updateLineCount` reports no change and
keeps 2 lines although the file has none.  Replaced by `abcdef\n`, of a larger
size: only the bytes from offset 4 on are counted, which gives 3 lines although
the file has one. -/
theorem cursorInv_broken_by_rotation :
    countTotalLines (some [97, 10, 98, 10]) = some ((2, 4), [(0, 4), (4, 0)]) ∧
      updateLineCount (some [97, 98, 99, 100]) ⟨2, 4⟩ = some (false, ⟨2, 4⟩, []) ∧
      ¬ cursorInv ⟨2, 4⟩ [97, 98, 99, 100] ∧
      updateLineCount (some [97, 98, 99, 100, 101, 102, 10]) ⟨2, 4⟩ =
        some (true, ⟨3, 7⟩, [(4, 3)]) ∧
      ¬ cursorInv ⟨3, 7⟩ [97, 98, 99, 100, 101, 102, 10] := by
  refine ⟨by decide, by decide, ?_, by decide, ?_⟩
  · unfold cursorInv; decide
  · unfold cursorInv; decide

theorem readAt_length (content : List Nat) (off size : Nat) :
    (readAt content off size).length = size := by
  simp only [readAt, List.length_append, List.length_take, List.length_drop,
    List.length_replicate]
  omega

theorem stringsSplit_ne_singleton_nil {α : Type} [DecidableEq α] (sep : α) (s : List α)
    (hs : s ≠ []) : stringsSplit sep s ≠ [[]] := by
  cases s with
  | nil => exact absurd rfl hs
  | cons c cs =>
    rw [stringsSplit]
    have hne := stringsSplit_ne_nil sep cs
    by_cases h : c = sep
    · rw [if_pos h]
      intro e
      simp only [List.cons.injEq, true_and] at e
      exact hne e
    · rw [if_neg h]
      cases hsp : stringsSplit sep cs with
      | nil => exact absurd hsp hne
      | cons frag frags => simp

theorem trimmed_ne_nil {α : Type} [DecidableEq α] (sep : α) (s : List α) (hs : s ≠ []) :
    (if (stringsSplit sep s).getLast? = some [] then (stringsSplit sep s).dropLast
      else stringsSplit sep s) ≠ [] := by
  have h1 := stringsSplit_ne_nil sep s
  have h2 := stringsSplit_ne_singleton_nil sep s hs
  split_ifs with h
  · obtain ⟨ys, hy⟩ := List.getLast?_eq_some_iff.mp h
    rw [hy] at h2 ⊢
    rw [List.dropLast_concat]
    intro e
    rw [e] at h2
    exact h2 rfl
  · exact h1

theorem getLastLinesLoop_eq_firstPassTrimLoop (content : List Nat) (bufSize n : Nat)
    (hbuf : content ≠ [] → 0 < bufSize) :
    ∀ (fuel cursor : Nat) (lines : List (List Nat)),
      (cursor = 0 ↔ lines = []) →
      getLastLinesLoop content content.length bufSize n fuel cursor lines =
        firstPassTrimLoop content content.length bufSize n fuel cursor lines := by
  intro fuel
  induction fuel with
  | zero => intro cursor lines _; rfl
  | succ fuel ih =>
    intro cursor lines hinv
    rw [getLastLinesLoop, firstPassTrimLoop]
    by_cases hc : cursor < content.length
    · have hne : content ≠ [] := by
        intro e; rw [e] at hc; simp at hc
      have hb := hbuf hne
      simp only [if_pos hc]
      generalize hcur2 :
        (if cursor + bufSize > content.length then content.length else cursor + bufSize) = cur2
      have hpos : cur2 ≠ 0 := by
        rw [← hcur2]; split_ifs <;> omega
      have hbufne : readAt content (content.length - cur2) bufSize ≠ [] := by
        intro e
        have := readAt_length content (content.length - cur2) bufSize
        rw [e] at this
        simp at this
        omega
      have htrim := trimmed_ne_nil 10 _ hbufne
      generalize stringsSplit 10 (readAt content (content.length - cur2) bufSize) = sp at htrim ⊢
      have hcond : (lines.length = 0 ∧ sp.getLast? = some []) ↔
          (cursor = 0 ∧ sp.getLast? = some []) := by
        rw [List.length_eq_zero, hinv]
      rw [if_congr hcond rfl rfl]
      have hchunk : (if cursor = 0 ∧ sp.getLast? = some [] then sp.dropLast else sp) ++ lines
          ≠ [] := by
        intro e
        obtain ⟨e1, e2⟩ := List.append_eq_nil.mp e
        have h0 : cursor = 0 := hinv.mpr e2
        simp only [h0, true_and] at e1
        exact htrim e1
      generalize (if cursor = 0 ∧ sp.getLast? = some [] then sp.dropLast else sp) ++ lines
        = lines2 at hchunk ⊢
      split_ifs
      · rfl
      · exact ih cur2 lines2 ⟨fun e => absurd e hpos, fun e => absurd e hchunk⟩
    · simp only [if_neg hc]

/-- C18: on a non-empty file the list of lines that `getLastLines` has accumulated
after its first pass is not empty, and `getLastLines` is the loop that drops an
empty last fragment on the first pass only: on every later pass the test
`len(lines) == 0` is false and the chunk is kept whole, its empty last fragment
included. -/
theorem getLastLines_trims_first_pass_only (content : List Nat) (n : Nat)
    (hne : content ≠ []) :
    firstPassLines content ≠ [] ∧
      getLastLines (some content) n =
        (firstPassTrimLoop content content.length
            (if content.length < 4096 then content.length else 4096) n
            (content.length + 1) 0 []).map (fun ls => (ls, content.length)) ∧
      ∀ (bufSize fuel cursor : Nat) (lines : List (List Nat)),
        lines ≠ [] → cursor < content.length →
        let cursor2 := if cursor + bufSize > content.length then content.length
          else cursor + bufSize
        let chunk := stringsSplit 10 (readAt content (content.length - cursor2) bufSize)
        getLastLinesLoop content content.length bufSize n (fuel + 1) cursor lines =
          if (chunk ++ lines).length > n then
            some ((chunk ++ lines).drop ((chunk ++ lines).length - n))
          else getLastLinesLoop content content.length bufSize n fuel cursor2 (chunk ++ lines) := by
  have hlen : 0 < content.length := List.length_pos.mpr hne
  have hbuf : 0 < (if content.length < 4096 then content.length else 4096) := by
    split_ifs <;> omega
  refine ⟨?_, ?_, ?_⟩
  · unfold firstPassLines
    apply trimmed_ne_nil
    intro e
    have := readAt_length content
      (content.length - (if content.length < 4096 then content.length else 4096))
      (if content.length < 4096 then content.length else 4096)
    rw [e] at this
    simp only [List.length_nil] at this
    omega
  · rw [getLastLines]
    rw [getLastLinesLoop_eq_firstPassTrimLoop content _ n (fun _ => hbuf) _ 0 [] (by simp)]
  · intro bufSize fuel cursor lines hl hc
    rw [getLastLinesLoop, if_pos hc]
    have : ¬ lines.length = 0 := fun e => hl (List.length_eq_zero.mp e)
    simp only [this, false_and, if_false]

/-- C18 (instance): the file of 1025 lines `abc`. -/
theorem getLastLines_trims_first_pass_only_witness :
    bigFile ≠ [] ∧ firstPassLines bigFile ≠ [] :=
  have h : bigFile ≠ [] := by
    intro e
    have := repLines_length 1025
    rw [show repLines 1025 = bigFile from rfl, e] at this
    simp at this
  ⟨h, (getLastLines_trims_first_pass_only bigFile 0 h).1⟩

/-- C19: for a file of at most 4096 bytes `getLastLines` returns the last
`min n L` lines of the file in file order, `L` being the number of fragments of the
content between line feeds without an empty last fragment, together with the file
size; for the empty file it returns no lines. -/
theorem getLastLines_one_pass (content : List Nat) (n : Nat) (h : content.length ≤ 4096) :
    getLastLines (some content) n =
        some ((fileLines content).drop
          ((fileLines content).length - min n (fileLines content).length), content.length) ∧
      getLastLines (some []) n = some ([], 0) := by
  have hempty : getLastLines (some []) n = some ([], 0) := by
    simp [getLastLines, getLastLinesLoop]
  refine ⟨?_, hempty⟩
  by_cases hne : content = []
  · subst hne
    rw [hempty]
    simp [fileLines, stringsSplit]
  · have hlen : 0 < content.length := List.length_pos.mpr hne
    have hbuf : (if content.length < 4096 then content.length else 4096) = content.length := by
      split_ifs <;> omega
    have hread : readAt content (content.length - content.length) content.length = content := by
      have := readAt_mid [] content [] (content.length - content.length) content.length
        (by simp) rfl
      simpa using this
    have hchunk : fileLines content =
        if ([] : List (List Nat)).length = 0 ∧
            (stringsSplit 10 (readAt content (content.length - content.length)
              content.length)).getLast? = some []
        then (stringsSplit 10 (readAt content (content.length - content.length)
              content.length)).dropLast
        else stringsSplit 10 (readAt content (content.length - content.length)
              content.length) := by
      rw [hread]
      simp [fileLines]
    have hcur : content.length =
        if 0 + content.length > content.length then content.length else 0 + content.length := by
      simp
    rw [getLastLines]
    simp only [hbuf]
    by_cases hn : n < (fileLines content).length
    · rw [getLastLinesLoop_return content content.length content.length n content.length 0 []
        content.length (fileLines content) hlen hcur hchunk (by simpa using hn)]
      simp only [List.append_nil, Option.map_some']
      rw [Nat.min_eq_left (Nat.le_of_lt hn)]
    · rw [getLastLinesLoop_continue content content.length content.length n content.length 0 []
        content.length (fileLines content) hlen hcur hchunk (by simpa using hn)]
      obtain ⟨k, hk⟩ : ∃ k, content.length = k + 1 := ⟨content.length - 1, by omega⟩
      have hstop : getLastLinesLoop content content.length content.length n content.length
          content.length (fileLines content ++ []) = some (fileLines content ++ []) := by
        conv_lhs => rw [show (content.length : Nat) = k + 1 from hk]
        rw [getLastLinesLoop]
        simp [hk]
      rw [hstop]
      simp only [List.append_nil, Option.map_some']
      have : (fileLines content).length - min n (fileLines content).length = 0 := by omega
      rw [this, List.drop_zero]

/-- C19 (instance): the file `a\nbc\nd` read with `n = 2`. -/
theorem getLastLines_one_pass_witness :
    ([97, 10, 98, 99, 10, 100] : List Nat).length ≤ 4096 ∧
      getLastLines (some [97, 10, 98, 99, 10, 100]) 2 =
        some ((fileLines [97, 10, 98, 99, 10, 100]).drop
          ((fileLines [97, 10, 98, 99, 10, 100]).length -
            min 2 (fileLines [97, 10, 98, 99, 10, 100]).length),
          ([97, 10, 98, 99, 10, 100] : List Nat).length) :=
  ⟨by decide, (getLastLines_one_pass [97, 10, 98, 99, 10, 100] 2 (by decide)).1⟩

/-- C20: when `isAsset` looks up an extension (the part of the URI before its
first `?` contains a `.`), the key it looks up is the lower-cased text from the
last `.` on; with a lower-casing that maps only `.` to `.`, as Go's does, the key
begins with `.` and has no other `.`.  So the key is never `.robots.txt`, and with
Go's lower-casing of ASCII `isAsset "/robots.txt"` is false and the entry passes
the hide-assets filter. -/
theorem isAsset_key_one_dot (lower : Char → Char) (uri : String)
    (hdot : ∀ c : Char, lower c = '.' ↔ c = '.') :
    isAsset lower uri =
        (decide (stringsLastIndex ((stringsSplit '?' uri.toList).headD []) '.' ≠ -1) &&
          assets.contains (String.mk (stringsToLower lower
            (((stringsSplit '?' uri.toList).headD []).drop
              (stringsLastIndex ((stringsSplit '?' uri.toList).headD []) '.').toNat)))) ∧
      (stringsLastIndex ((stringsSplit '?' uri.toList).headD []) '.' ≠ -1 →
        ∃ ext : List Char,
          stringsToLower lower
              (((stringsSplit '?' uri.toList).headD []).drop
                (stringsLastIndex ((stringsSplit '?' uri.toList).headD []) '.').toNat) =
            '.' :: ext ∧ '.' ∉ ext ∧
          String.mk ('.' :: ext) ≠ ".robots.txt") ∧
      ((∀ c : Char, c.toNat < 128 → lower c = c.toLower) →
        isAsset lower "/robots.txt" = false ∧
          ∀ (lCount : Int) (l : CaddyLog), l.URI = "/robots.txt" →
            passesFilters lower ⟨lCount, true, false, false, "", ""⟩ l = true) := by
  refine ⟨rfl, ?_, ?_⟩
  · intro hidx
    rw [stringsSplit_head] at hidx ⊢
    generalize uri.toList.takeWhile (fun c => !decide (c = '?')) = clean at hidx ⊢
    have hmem : '.' ∈ clean := by
      by_contra hno
      exact hidx (by rw [stringsLastIndex, lastIndexFrom_not_mem '.' clean hno])
    obtain ⟨pre, ext, e, hn⟩ := exists_last_occurrence '.' clean hmem
    have hi : stringsLastIndex clean '.' = ((0 + pre.length : Nat) : Int) := by
      rw [e, stringsLastIndex, lastIndexFrom_last '.' pre ext hn]
    have h2 : ((0 + pre.length : Nat) : Int).toNat = pre.length := by omega
    refine ⟨ext.map lower, ?_, ?_, ?_⟩
    · rw [hi, h2, e, List.drop_left]
      simp only [stringsToLower, List.map_cons]
      rw [(hdot '.').mpr rfl]
    · intro hm
      obtain ⟨c, hc, hlc⟩ := List.mem_map.mp hm
      rw [(hdot c).mp hlc] at hc
      exact hn hc
    · intro hs
      have hl : '.' :: ext.map lower = ".robots.txt".toList := by
        have := congrArg String.toList hs
        simpa using this
      have hm : '.' ∈ ext.map lower := by
        have h3 : ext.map lower = "robots.txt".toList := by
          have := List.tail_eq_of_cons_eq hl
          simpa using this
        rw [h3]
        decide
      obtain ⟨c, hc, hlc⟩ := List.mem_map.mp hm
      rw [(hdot c).mp hlc] at hc
      exact hn hc
  · intro hlow
    have hfalse : isAsset lower "/robots.txt" = false := by
      rw [isAsset_of_last_dot lower "/robots.txt" "/robots".toList "txt".toList (by decide)
        (by decide)]
      simp only [List.map_cons, List.map_nil, String.toList]
      rw [hlow '.' (by decide), hlow 't' (by decide), hlow 'x' (by decide)]
      decide
    refine ⟨hfalse, ?_⟩
    intro lCount l hl
    simp [passesFilters, hostSkips, findSkips, hl, hfalse]

theorem toLower_eq_dot (c : Char) : Char.toLower c = '.' ↔ c = '.' := by
  constructor
  · intro hc
    simp only [Char.toLower] at hc
    split_ifs at hc with h1
    · exfalso
      obtain ⟨h65, h90⟩ := h1
      generalize c.toNat = k at h65 h90 hc
      interval_cases k <;> exact absurd hc (by decide)
    · exact hc
  · intro hc; rw [hc]; rfl

/-- C20 (instance): ASCII lower-casing and the URI `/robots.txt`. -/
theorem isAsset_key_one_dot_witness :
    (∀ c : Char, Char.toLower c = '.' ↔ c = '.') ∧ isAsset Char.toLower "/robots.txt" = false :=
  ⟨toLower_eq_dot,
    ((isAsset_key_one_dot Char.toLower "/robots.txt" toLower_eq_dot).2.2 (fun _ _ => rfl)).1⟩

end Clog
